import Mathlib

/-!
# Verification of the buds-relay server core

Shallow embedding of the buds-relay source (TypeScript, Cloudflare Workers)
and proofs about it.  Machine integers are modelled as `Nat` with explicit
`% 2^32` where the JavaScript 32-bit semantics matter; byte strings are
`List Nat` with entries below 256; fallible code returns `Option`/`Except`.
External collaborators (the CBOR library, WebCrypto AES-GCM, Ed25519) are
abstract function parameters; SHA-256 is implemented concretely.
-/

namespace BudsRelay

/-! ## Bit-level groundwork

MSB-first bit lists and their correspondence with the shift/mask
arithmetic in the base32 encoder and decoder. -/

/-- The low `w` bits of `x`, most significant first. -/
def natBits : Nat → Nat → List Bool
  | 0, _ => []
  | w + 1, x => x.testBit w :: natBits w x

/-- The value of an MSB-first bit list. -/
def bitsVal (bs : List Bool) : Nat :=
  bs.foldl (fun a b => 2 * a + (if b then 1 else 0)) 0

/-! ## Base32 (src/utils/base32.ts)

Faithful translation of `encodeBase32` / `decodeBase32`.  JavaScript's
`<<`/`|` operate on 32-bit integers, so buffer updates are taken mod
`2 ^ 32`; every bit the code reads lives strictly below bit 13, so the
wrap never changes an emitted value (proved below, not assumed). -/

/-- The constant string `'abcdefghijklmnopqrstuvwxyz234567'`. -/
def BASE32_ALPHABET : List Char := "abcdefghijklmnopqrstuvwxyz234567".data

/-- `BASE32_ALPHABET[index]` (the code always masks the index below 32). -/
def alphaChar (i : Nat) : Char := BASE32_ALPHABET.getD i '?'

/-- `BASE32_ALPHABET.indexOf(char)`, with `-1` rendered as `none`. -/
def base32Index (c : Char) : Option Nat := BASE32_ALPHABET.findIdx? (· == c)

/-- The JavaScript 32-bit wrap applied by `<<` and `|`. -/
def js32 (x : Nat) : Nat := x % 2 ^ 32

/-- The inner `while (bitsInBuffer >= 5)` loop of `encodeBase32`:
emits 5-bit indices MSB-first; returns the emitted characters and the
leftover bit count. -/
def encodeDrain (buffer : Nat) : Nat → List Char × Nat
  | bits + 5 =>
    (alphaChar ((buffer >>> bits) &&& 0x1f) :: (encodeDrain buffer bits).1,
      (encodeDrain buffer bits).2)
  | bits => ([], bits)

/-- One iteration of the `for (const byte of bytes)` loop. -/
def encodeStepByte (st : Nat × Nat × List Char) (byte : Nat) : Nat × Nat × List Char :=
  (js32 ((st.1 <<< 8) ||| byte),
    (encodeDrain (js32 ((st.1 <<< 8) ||| byte)) (st.2.1 + 8)).2,
    st.2.2 ++ (encodeDrain (js32 ((st.1 <<< 8) ||| byte)) (st.2.1 + 8)).1)

/-- The `if (bitsInBuffer > 0)` tail emission of `encodeBase32`. -/
def encodeFlush (buffer bits : Nat) : List Char :=
  if 0 < bits then [alphaChar (js32 (buffer <<< (5 - bits)) &&& 0x1f)] else []

/-- The `while (result.length % 8 !== 0) result += '='` padding loop.
Each pass appends one character, so at most 7 passes run; the loop is
rendered with fuel 8, and `padEq_spec` below proves the exact behaviour. -/
def padEqGo : Nat → List Char → List Char
  | 0, s => s
  | fuel + 1, s => if s.length % 8 = 0 then s else padEqGo fuel (s ++ ['='])

def padEq (s : List Char) : List Char := padEqGo 8 s

/-- `encodeBase32(bytes)` as a character list. -/
def encodeBase32Chars (bytes : List Nat) : List Char :=
  let st := bytes.foldl encodeStepByte (0, 0, [])
  padEq (st.2.2 ++ encodeFlush st.1 st.2.1)

/-- `encodeBase32(bytes)` (src/utils/base32.ts, lines 12-40). -/
def encodeBase32 (bytes : List Nat) : String := ⟨encodeBase32Chars bytes⟩

/-- The decoder loop over cleaned characters; `indexOf` returning `-1`
throws in the source, modelled as `none`.  The two `let` bindings of the
source (`buffer = (buffer << 5) | index`, `bitsInBuffer += 5`) are
substituted inline. -/
def decodeLoop : List Char → Nat → Nat → List Nat → Option (List Nat)
  | [], _, _, out => some out
  | c :: rest, buffer, bits, out =>
    match base32Index c with
    | none => none
    | some index =>
      if 8 ≤ bits + 5 then
        decodeLoop rest (js32 ((buffer <<< 5) ||| index)) (bits + 5 - 8)
          (out ++ [(js32 ((buffer <<< 5) ||| index) >>> (bits + 5 - 8)) &&& 0xff])
      else
        decodeLoop rest (js32 ((buffer <<< 5) ||| index)) (bits + 5) out

/-- `str.toLowerCase().replace(/=/g, '')`. -/
def cleanBase32 (s : List Char) : List Char :=
  (s.map Char.toLower).filter (fun c => c ≠ '=')

/-- `decodeBase32(str)` (src/utils/base32.ts, lines 45-67). -/
def decodeBase32 (s : String) : Option (List Nat) :=
  decodeLoop (cleanBase32 s.data) 0 0 []

/-! ### Chunk-level specification of the two loops -/

/-- The full `k`-bit chunks of a bit stream, as values, MSB-first. -/
def fullCh (k : Nat) (bs : List Bool) : List Nat :=
  if h : 0 < k ∧ k ≤ bs.length then
    bitsVal (bs.take k) :: fullCh k (bs.drop k)
  else []
termination_by bs.length
decreasing_by simp only [List.length_drop]; omega

/-- The leftover (fewer than `k` bits) after removing full `k`-bit chunks. -/
def remCh (k : Nat) (bs : List Bool) : List Bool :=
  if h : 0 < k ∧ k ≤ bs.length then remCh k (bs.drop k) else bs
termination_by bs.length
decreasing_by simp only [List.length_drop]; omega

/-- A byte list as an MSB-first bit stream. -/
def bytesBits (l : List Nat) : List Bool := l.flatMap (natBits 8)

/-- The 5-bit values the encoder emits for a bit stream: all full chunks,
then the zero-padded leftover chunk if the leftover is nonempty. -/
def enc5vals (S : List Bool) : List Nat :=
  fullCh 5 S ++
    (if remCh 5 S = [] then []
     else [bitsVal (remCh 5 S) * 2 ^ (5 - (remCh 5 S).length)])

/-! ## SHA-256

The relay calls the platform's `crypto.subtle.digest('SHA-256', ...)`.
We implement the function concretely (FIPS 180-4) over byte lists so that
CID computation is executable; 32-bit words are `Nat` reduced mod `2^32`. -/

/-- Right rotation of a 32-bit word. -/
def rotr32 (n x : Nat) : Nat := ((x >>> n) ||| (x <<< (32 - n))) % 2 ^ 32

def sigma0 (x : Nat) : Nat := (rotr32 7 x) ^^^ (rotr32 18 x) ^^^ (x >>> 3)

def sigma1 (x : Nat) : Nat := (rotr32 17 x) ^^^ (rotr32 19 x) ^^^ (x >>> 10)

def usigma0 (x : Nat) : Nat := (rotr32 2 x) ^^^ (rotr32 13 x) ^^^ (rotr32 22 x)

def usigma1 (x : Nat) : Nat := (rotr32 6 x) ^^^ (rotr32 11 x) ^^^ (rotr32 25 x)

def shaCh (x y z : Nat) : Nat := (x &&& y) ^^^ ((x ^^^ 0xffffffff) &&& z)

def shaMaj (x y z : Nat) : Nat := (x &&& y) ^^^ (x &&& z) ^^^ (y &&& z)

/-- The 64 SHA-256 round constants. -/
def shaK : List Nat :=
  [1116352408, 1899447441, 3049323471, 3921009573,  -- 0x428a2f98 0x71374491 0xb5c0fbcf 0xe9b5dba5
   961987163, 1508970993, 2453635748, 2870763221,  -- 0x3956c25b 0x59f111f1 0x923f82a4 0xab1c5ed5
   3624381080, 310598401, 607225278, 1426881987,  -- 0xd807aa98 0x12835b01 0x243185be 0x550c7dc3
   1925078388, 2162078206, 2614888103, 3248222580,  -- 0x72be5d74 0x80deb1fe 0x9bdc06a7 0xc19bf174
   3835390401, 4022224774, 264347078, 604807628,  -- 0xe49b69c1 0xefbe4786 0x0fc19dc6 0x240ca1cc
   770255983, 1249150122, 1555081692, 1996064986,  -- 0x2de92c6f 0x4a7484aa 0x5cb0a9dc 0x76f988da
   2554220882, 2821834349, 2952996808, 3210313671,  -- 0x983e5152 0xa831c66d 0xb00327c8 0xbf597fc7
   3336571891, 3584528711, 113926993, 338241895,  -- 0xc6e00bf3 0xd5a79147 0x06ca6351 0x14292967
   666307205, 773529912, 1294757372, 1396182291,  -- 0x27b70a85 0x2e1b2138 0x4d2c6dfc 0x53380d13
   1695183700, 1986661051, 2177026350, 2456956037,  -- 0x650a7354 0x766a0abb 0x81c2c92e 0x92722c85
   2730485921, 2820302411, 3259730800, 3345764771,  -- 0xa2bfe8a1 0xa81a664b 0xc24b8b70 0xc76c51a3
   3516065817, 3600352804, 4094571909, 275423344,  -- 0xd192e819 0xd6990624 0xf40e3585 0x106aa070
   430227734, 506948616, 659060556, 883997877,  -- 0x19a4c116 0x1e376c08 0x2748774c 0x34b0bcb5
   958139571, 1322822218, 1537002063, 1747873779,  -- 0x391c0cb3 0x4ed8aa4a 0x5b9cca4f 0x682e6ff3
   1955562222, 2024104815, 2227730452, 2361852424,  -- 0x748f82ee 0x78a5636f 0x84c87814 0x8cc70208
   2428436474, 2756734187, 3204031479, 3329325298]  -- 0x90befffa 0xa4506ceb 0xbef9a3f7 0xc67178f2

/-- The initial hash value. -/
def shaH0 : List Nat :=
  [1779033703, 3144134277, 1013904242, 2773480762,  -- 0x6a09e667 0xbb67ae85 0x3c6ef372 0xa54ff53a
   1359893119, 2600822924, 528734635, 1541459225]  -- 0x510e527f 0x9b05688c 0x1f83d9ab 0x5be0cd19

/-- A `Nat` as 8 big-endian bytes (the message bit length field). -/
def be64 (n : Nat) : List Nat :=
  [(n >>> 56) % 256, (n >>> 48) % 256, (n >>> 40) % 256, (n >>> 32) % 256,
   (n >>> 24) % 256, (n >>> 16) % 256, (n >>> 8) % 256, n % 256]

/-- FIPS 180-4 padding: `0x80`, zeros to 56 mod 64, 8-byte bit length. -/
def shaPad (m : List Nat) : List Nat :=
  m ++ [0x80] ++ List.replicate ((120 - (m.length + 1) % 64) % 64) 0
    ++ be64 (8 * m.length)

/-- Split into 64-byte blocks (structural accumulator form; the padded
message length is always a multiple of 64). -/
def blocks64Go : List Nat → List Nat → List (List Nat)
  | [], acc => if acc.isEmpty then [] else [acc]
  | x :: rest, acc =>
    if acc.length = 63 then (acc ++ [x]) :: blocks64Go rest []
    else blocks64Go rest (acc ++ [x])

def blocks64 (l : List Nat) : List (List Nat) := blocks64Go l []

/-- 4 big-endian bytes as a 32-bit word. -/
def beWord (bs : List Nat) : Nat := bs.foldl (fun a b => a * 256 + b) 0

/-- The 16 initial schedule words of a block. -/
def blockWords (blk : List Nat) : List Nat :=
  (List.range 16).map (fun i => beWord ((blk.drop (4 * i)).take 4))

/-- One message-schedule extension step. -/
def stepW (ws : List Nat) : List Nat :=
  ws ++ [(sigma1 (ws.getD (ws.length - 2) 0) + ws.getD (ws.length - 7) 0
    + sigma0 (ws.getD (ws.length - 15) 0) + ws.getD (ws.length - 16) 0) % 2 ^ 32]

def extendW : Nat → List Nat → List Nat
  | 0, ws => ws
  | n + 1, ws => extendW n (stepW ws)

/-- One compression round on the working state `[a,b,c,d,e,f,g,h]`. -/
def shaRound (st : List Nat) (kw : Nat × Nat) : List Nat :=
  let a := st.getD 0 0
  let b := st.getD 1 0
  let c := st.getD 2 0
  let d := st.getD 3 0
  let e := st.getD 4 0
  let f := st.getD 5 0
  let g := st.getD 6 0
  let h := st.getD 7 0
  let t1 := (h + usigma1 e + shaCh e f g + kw.1 + kw.2) % 2 ^ 32
  let t2 := (usigma0 a + shaMaj a b c) % 2 ^ 32
  [(t1 + t2) % 2 ^ 32, a, b, c, (d + t1) % 2 ^ 32, e, f, g]

/-- Compress one 64-byte block into the running hash. -/
def compressBlock (H : List Nat) (blk : List Nat) : List Nat :=
  let ws := extendW 48 (blockWords blk)
  let st := (shaK.zip ws).foldl shaRound H
  List.zipWith (fun x y => (x + y) % 2 ^ 32) H st

/-- SHA-256 of a byte list, as 32 bytes. -/
def sha256 (m : List Nat) : List Nat :=
  ((blocks64 (shaPad m)).foldl compressBlock shaH0).flatMap
    (fun w => [(w >>> 24) % 256, (w >>> 16) % 256, (w >>> 8) % 256, w % 256])

/-! ## CID (src/utils/cid.ts) -/

/-- `computeCID(bytes)` (src/utils/cid.ts, lines 26-52):
`'b' + base32(0x01 ∥ 0x71 ∥ 0x12 ∥ 0x20 ∥ sha256(bytes))` with the
`'='` padding removed and the result lowercased. -/
def computeCID (bytes : List Nat) : String :=
  let hashBytes := sha256 bytes
  let multihash := [0x12, 0x20] ++ hashBytes
  let cid := [0x01, 0x71] ++ multihash
  let base32 := encodeBase32Chars cid
  let base32NoPadding := base32.filter (fun c => c ≠ '=')
  ⟨'b' :: base32NoPadding.map Char.toLower⟩

/-- `verifyCID(cid, bytes)` (src/utils/cid.ts, lines 61-64): recompute and
compare for exact string equality. -/
def verifyCID (cid : String) (bytes : List Nat) : Bool := computeCID bytes == cid

/-! ## Phone encryption (src/utils/phone_encryption.ts)

`TextEncoder` is UTF-8; we implement it concretely over the string's
scalar values.  AES-GCM, `atob` and `btoa` are platform primitives and
enter as abstract functions. -/

/-- UTF-8 encoding of one unicode scalar value. -/
def utf8Char (c : Char) : List Nat :=
  let n := c.toNat
  if n < 0x80 then [n]
  else if n < 0x800 then [0xc0 ||| (n >>> 6), 0x80 ||| (n &&& 0x3f)]
  else if n < 0x10000 then
    [0xe0 ||| (n >>> 12), 0x80 ||| ((n >>> 6) &&& 0x3f), 0x80 ||| (n &&& 0x3f)]
  else
    [0xf0 ||| (n >>> 18), 0x80 ||| ((n >>> 12) &&& 0x3f),
      0x80 ||| ((n >>> 6) &&& 0x3f), 0x80 ||| (n &&& 0x3f)]

/-- `new TextEncoder().encode(s)`. -/
def utf8Encode (s : String) : List Nat := s.data.flatMap utf8Char

/-- The platform crypto surface used by `encryptPhone`: `atob` for the
base64 key, AES-256-GCM encryption (ciphertext with the 16-byte tag
appended, as WebCrypto returns it), and `btoa` for storage encoding. -/
structure CryptoEnv where
  atob : String → List Nat
  aesGcmEncrypt : List Nat → List Nat → List Nat → List Nat
  btoa : List Nat → String

/-- `deriveNonce(phoneNumber)` (src/utils/phone_encryption.ts, lines
25-36): the first 12 bytes of SHA-256 of the phone plaintext. -/
def deriveNonce (phoneNumber : String) : List Nat :=
  (sha256 (utf8Encode phoneNumber)).take 12

/-- `encryptPhone(phoneNumber, encryptionKey)` (src/utils/phone_encryption.ts,
lines 45-82). -/
def encryptPhone (env : CryptoEnv) (phoneNumber encryptionKey : String) : String :=
  let keyData := env.atob encryptionKey
  let nonce := deriveNonce phoneNumber
  let plaintext := utf8Encode phoneNumber
  env.btoa (env.aesGcmEncrypt keyData nonce plaintext)

/-! ## Account salts (src/handlers/account.ts) -/

/-- The body of `getOrCreateAccountSalt` (src/handlers/account.ts, lines
50-90) over the `account_salts` table (rows `(encrypted_phone, salt)`):
`SELECT salt WHERE encrypted_phone = ?`; if present return it with
`created: false`; otherwise insert a fresh salt and return it with
`created: true`. -/
def getOrCreateSaltRow (salts : List (String × String))
    (encryptedPhone freshSalt : String) :
    (String × Bool) × List (String × String) :=
  match salts.find? (fun p => p.1 == encryptedPhone) with
  | some row => ((row.2, false), salts)
  | none => ((freshSalt, true), salts ++ [(encryptedPhone, freshSalt)])

/-- `getOrCreateAccountSalt` for an authenticated phone: the phone is
first encrypted with the process key (deterministically), then the row
logic runs on the encrypted phone. -/
def getOrCreateAccountSalt (env : CryptoEnv) (key : String)
    (salts : List (String × String)) (phone freshSalt : String) :
    (String × Bool) × List (String × String) :=
  getOrCreateSaltRow salts (encryptPhone env phone key) freshSalt

/-- Any interleaved sequence of salt calls (each a phone plus the fresh
salt its call would generate). -/
def applySaltCalls (env : CryptoEnv) (key : String)
    (salts : List (String × String)) (calls : List (String × String)) :
    List (String × String) :=
  calls.foldl (fun st c => (getOrCreateAccountSalt env key st c.1 c.2).2) salts

/-! ## Input validation (src/utils/validation.ts) -/

/-- The character class `[A-Za-z0-9]`. -/
def isAlphaNumChar (c : Char) : Bool :=
  ('A' ≤ c && c ≤ 'Z') || ('a' ≤ c && c ≤ 'z') || ('0' ≤ c && c ≤ '9')

/-- The Zod schema `schemas.did` (src/utils/validation.ts, lines 112-115):
the regex `^did:buds:[A-Za-z0-9]{1,44}$`.  This is the only DID shape the
schema admits. -/
def didRegexAccepts : List Char → Bool
  | 'd' :: 'i' :: 'd' :: ':' :: 'b' :: 'u' :: 'd' :: 's' :: ':' :: rest =>
    1 ≤ rest.length && rest.length ≤ 44 && rest.all isAlphaNumChar
  | _ => false

def didSchemaAccepts (s : String) : Bool := didRegexAccepts s.data

/-! ## Jar receipts: data model

Rows of `jar_receipts` and `jar_members` (schema migration 0007), the
decoded CBOR envelope, and the platform/library surface (cbor-x decode,
Ed25519 verify, the devices-table key lookup) as abstract functions. -/

structure ReceiptRow where
  jarId : String
  sequenceNumber : Nat
  receiptCid : String
  receiptData : List Nat
  signature : List Nat
  senderDid : String
  receivedAt : Nat
  parentCid : Option String
deriving DecidableEq

structure MemberRow where
  jarId : String
  memberDid : String
  status : String
  role : String
  addedAt : Int
  removedAt : Option Int
  addedByReceiptCid : Option String
  removedByReceiptCid : Option String
deriving DecidableEq

/-- A decoded jar receipt as `receiptProcessor.ts` consumes it.
`payloadMemberDid` is the member DID the payload yields — the value of
`payload.memberDID || payload.member_did` after the nested CBOR decode —
or `none` when the payload is missing, fails to decode, or carries
neither key. -/
structure JarReceiptPayload where
  receipt_type : String
  sender_did : String
  timestamp : Int
  parent_cid : Option String := none
  payloadMemberDid : Option String := none
deriving DecidableEq

/-- `isActiveMember(db, jarId, memberDid)` (src/utils/jarValidation.ts,
lines 23-37). -/
def isActiveMember (members : List MemberRow) (jarId memberDid : String) : Bool :=
  members.any (fun m =>
    m.jarId == jarId && m.memberDid == memberDid && m.status == "active")

/-- SQLite `INSERT OR REPLACE` into `jar_members`, whose primary key is
`(jar_id, member_did)`: the existing row for that key (if any) is
replaced; unspecified columns become NULL. -/
def upsertMember (members : List MemberRow) (row : MemberRow) : List MemberRow :=
  members.filter (fun m => ¬(m.jarId = row.jarId ∧ m.memberDid = row.memberDid))
    ++ [row]

/-- `processJarReceipt(db, jarId, receiptCid, receiptBytes, sequenceNumber)`
(src/utils/receiptProcessor.ts, lines 28-172), applied to the decoded
receipt.  The switch on `receipt_type`:

- `jar.created`: INSERT OR REPLACE the sender as `(active, owner)`;
- `jar.member_added`: INSERT OR REPLACE the payload member as
  `(active, member)`, or return when the payload yields no member DID;
- `jar.invite_accepted`: UPDATE status to active for the payload member,
  defaulting to the sender;
- `jar.member_removed`: UPDATE status to removed for the payload member;
- unknown types: ignored.

The `sequenceNumber` parameter is used only in log lines: no branch
consults it. -/
def processJarReceipt (members : List MemberRow) (jarId receiptCid : String)
    (receipt : JarReceiptPayload) (sequenceNumber : Nat) : List MemberRow :=
  if receipt.receipt_type = "jar.created" then
    upsertMember members
      ⟨jarId, receipt.sender_did, "active", "owner", receipt.timestamp,
        none, some receiptCid, none⟩
  else if receipt.receipt_type = "jar.member_added" then
    match receipt.payloadMemberDid with
    | none => members
    | some memberDid =>
      upsertMember members
        ⟨jarId, memberDid, "active", "member", receipt.timestamp,
          none, some receiptCid, none⟩
  else if receipt.receipt_type = "jar.invite_accepted" then
    members.map (fun m =>
      if m.jarId = jarId ∧ m.memberDid = receipt.payloadMemberDid.getD receipt.sender_did
      then { m with status := "active" } else m)
  else if receipt.receipt_type = "jar.member_removed" then
    match receipt.payloadMemberDid with
    | none => members
    | some memberDid =>
      members.map (fun m =>
        if m.jarId = jarId ∧ m.memberDid = memberDid
        then
          { m with
              status := "removed",
              removedAt := some receipt.timestamp,
              removedByReceiptCid := some receiptCid }
        else m)
  else members

/-! ## Jar receipts: the store pipeline (src/handlers/lookup.ts) -/

deriving instance DecidableEq for Except

/-- The external surface the receipt pipeline runs against:
`decodeReceipt` is cbor-x `decode`; `keyFor` is the
`getSenderPublicKey` devices-table lookup (latest active Ed25519 key);
`verify` is WebCrypto Ed25519 verification. -/
structure RelayEnv where
  decodeReceipt : List Nat → Option JarReceiptPayload
  keyFor : String → Option (List Nat)
  verify : List Nat → List Nat → List Nat → Bool

/-- `startsWith`, spelled out over the character lists. -/
def strHasPrefix : List Char → List Char → Bool
  | [], _ => true
  | _ :: _, [] => false
  | p :: ps, c :: cs => p == c && strHasPrefix ps cs

/-- `extractSenderDid(receiptBytes)` (src/utils/cbor.ts, lines 95-118):
decode, require a non-empty string `sender_did`, require the
`did:phone:` prefix. -/
def extractSenderDid (env : RelayEnv) (receiptBytes : List Nat) :
    Except String String :=
  match env.decodeReceipt receiptBytes with
  | none => .error "Invalid receipt CBOR"
  | some decoded =>
    if decoded.sender_did = "" then
      .error "Missing or invalid sender_did in receipt"
    else if ¬ strHasPrefix "did:phone:".data decoded.sender_did.data then
      .error "Invalid DID format"
    else .ok decoded.sender_did

/-- `COALESCE(MAX(sequence_number) ... WHERE jar_id = ?), 0)`. -/
def maxSeq (receipts : List ReceiptRow) (jarId : String) : Nat :=
  (receipts.filter (fun r => r.jarId == jarId)).foldl
    (fun a r => max a r.sequenceNumber) 0

/-- `tryInsertReceipt` (src/handlers/lookup.ts, lines 1440-1512): one
attempted `INSERT` with `sequence_number = COALESCE(MAX(...), 0) + 1`.
A UNIQUE-constraint violation — on `(jar_id, sequence_number)` or on
`receipt_cid` — yields `none` (the retry signal); on success the
assigned sequence is read back by `receipt_cid` and returned. -/
def tryInsertReceipt (receipts : List ReceiptRow) (jarId receiptCid : String)
    (receiptBytes signatureBytes : List Nat) (senderDid : String) (now : Nat)
    (parentCid : Option String) : Option (Nat × List ReceiptRow) :=
  let seq := maxSeq receipts jarId + 1
  if receipts.any (fun r => r.jarId == jarId && r.sequenceNumber == seq)
      || receipts.any (fun r => r.receiptCid == receiptCid) then
    none
  else
    some (seq, receipts ++
      [⟨jarId, seq, receiptCid, receiptBytes, signatureBytes, senderDid, now,
        parentCid⟩])

inductive StoreResult where
  | badRequest (msg : String)
  | forbidden (msg : String)
  | serverError (msg : String)
  | ok (receiptCid : String) (sequence : Nat) (idempotent : Bool)
deriving DecidableEq

structure RelayDb where
  receipts : List ReceiptRow
  members : List MemberRow
deriving DecidableEq

/-- `storeJarReceipt` (src/handlers/lookup.ts, lines 1543-1721), for one
request running to completion:

1. extract `sender_did` from the receipt CBOR (400 on failure);
2. compute the CID and verify it (400 on mismatch — never taken, since
   the claimed CID is the one just computed);
3. idempotency: an existing row with this `receipt_cid` short-circuits
   with its stored sequence and no further work;
4. key lookup (403 when absent);
5. Ed25519 signature verification (403 on failure);
6. authorization: an active member proceeds; a non-member is allowed
   only when the jar has no receipts (genesis), else 403;
7. the optional `parent_cid` check only logs;
8. sequence assignment via `tryInsertReceipt` — with no interleaving the
   outcome of each of the up-to-5 attempts is identical, so one attempt
   stands for the loop (the loop itself is `seqRetryGo` below);
9. materialization via `processJarReceipt`; its errors are swallowed. -/
def storeJarReceipt (env : RelayEnv) (db : RelayDb) (jarId : String)
    (receiptBytes signatureBytes : List Nat) (parentCid : Option String)
    (now : Nat) : StoreResult × RelayDb :=
  match extractSenderDid env receiptBytes with
  | .error e => (.badRequest e, db)
  | .ok senderDid =>
    if ¬ verifyCID (computeCID receiptBytes) receiptBytes then
      (.badRequest "CID does not match receipt data", db)
    else
      match db.receipts.find? (fun r => r.receiptCid == computeCID receiptBytes) with
      | some existing => (.ok (computeCID receiptBytes) existing.sequenceNumber true, db)
      | none =>
        match env.keyFor senderDid with
        | none => (.forbidden "Sender device not registered or no public key found", db)
        | some pub =>
          if ¬ env.verify pub receiptBytes signatureBytes then
            (.forbidden "Invalid signature", db)
          else if ¬ isActiveMember db.members jarId senderDid
              ∧ 0 < maxSeq db.receipts jarId then
            (.forbidden "Not a member of this jar", db)
          else
            match tryInsertReceipt db.receipts jarId (computeCID receiptBytes)
                receiptBytes signatureBytes senderDid now parentCid with
            | none =>
              (.serverError "Failed to assign sequence after 5 retries (race condition)",
                db)
            | some (seq, receipts') =>
              (.ok (computeCID receiptBytes) seq false,
                ⟨receipts',
                  match env.decodeReceipt receiptBytes with
                  | none => db.members
                  | some decoded =>
                    processJarReceipt db.members jarId (computeCID receiptBytes)
                      decoded seq⟩)

/-- A concrete oracle set for evaluation: every byte string decodes to a
receipt of the given type from `did:phone:aa`, the key lookup and the
signature check succeed. -/
def stubEnv (rtype : String) : RelayEnv :=
  ⟨fun _ => some ⟨rtype, "did:phone:aa", 3, none, none⟩,
    fun _ => some [5], fun _ _ _ => true⟩

/-! ## Sequence assignment: retry loop and density -/

/-- The three possible outcomes of one insert attempt, as
`tryInsertReceipt` classifies them: a sequence was assigned; the catch
saw a UNIQUE/constraint message and returned `null`; any other error is
rethrown. -/
inductive InsertAttempt where
  | assigned (seq : Nat)
  | uniqueViolation
  | dbError (msg : String)
deriving DecidableEq

/-- The `for (attempt = 0; attempt < 5; attempt++)` retry loop of
`storeJarReceipt` (src/handlers/lookup.ts, lines 1659-1690), abstracted
over the attempt outcomes; it collects the `10 * (attempt + 1)` ms
backoffs it sleeps and ends in the assigned sequence, a propagated
error, or the final throw after 5 failed attempts. -/
def seqRetryGo (outcomes : List InsertAttempt) :
    Nat → Nat → List Nat → List Nat × Except String Nat
  | 0, _, sleeps =>
    (sleeps, .error "Failed to assign sequence after 5 retries (race condition)")
  | remaining + 1, attempt, sleeps =>
    match outcomes.getD attempt .uniqueViolation with
    | .assigned seq => (sleeps, .ok seq)
    | .uniqueViolation =>
      seqRetryGo outcomes remaining (attempt + 1) (sleeps ++ [10 * (attempt + 1)])
    | .dbError msg => (sleeps, .error msg)

def sequenceRetryLoop (outcomes : List InsertAttempt) :
    List Nat × Except String Nat :=
  seqRetryGo outcomes 5 0 []

/-- The table of a store pipeline request, for iterating `storeJarReceipt`. -/
structure StoreCall where
  env : RelayEnv
  jarId : String
  receiptBytes : List Nat
  signatureBytes : List Nat
  parentCid : Option String
  now : Nat

/-- Fold a sequence of store requests over an initially empty database. -/
def applyStores (calls : List StoreCall) : RelayDb :=
  calls.foldl
    (fun db c =>
      (storeJarReceipt c.env db c.jarId c.receiptBytes c.signatureBytes
        c.parentCid c.now).2)
    ⟨[], []⟩

/-- The stored sequence numbers of a jar, in storage order. -/
def jarSeqs (receipts : List ReceiptRow) (jar : String) : List Nat :=
  (receipts.filter (fun r => r.jarId == jar)).map (fun r => r.sequenceNumber)

/-! ### Message deletion (src/handlers/lookup.ts, deleteMessage, lines 720-764)

The handler reads the message row, then issues
`DELETE FROM encrypted_messages WHERE message_id = ? AND (sender_did = ? OR
expires_at < ?)` binding `message.sender_did` — the row's own stored sender —
rather than the authenticated caller.  The caller (`user`) is read at the top
of the handler and never used again.  We model the tables as lists and the
handler as a pure function over them; `callerDid` is a parameter that, as in
the source, does not flow into the delete predicate. -/

structure MessageRow where
  messageId : String
  senderDid : String
  r2Key : Option String
  expiresAt : Nat
deriving DecidableEq, Repr

structure DeliveryRow where
  messageId : String
  recipientDid : String
  deliveredAt : Option Nat
deriving DecidableEq, Repr

inductive DeleteResult where
  | notFound
  | forbidden
  | success (deletedAt : Nat)
deriving DecidableEq, Repr

def deleteMessage (messages : List MessageRow) (deliveries : List DeliveryRow)
    (r2 : List String) (callerDid : String) (messageId : String) (now : Nat) :
    DeleteResult × List MessageRow × List DeliveryRow × List String :=
  match messages.find? (fun m => m.messageId == messageId) with
  | none => (DeleteResult.notFound, messages, deliveries, r2)
  | some message =>
    let keep := messages.filter (fun m =>
      !(m.messageId == messageId &&
        (m.senderDid == message.senderDid || decide (m.expiresAt < now))))
    if messages.length - keep.length = 0 then
      (DeleteResult.forbidden, messages, deliveries, r2)
    else
      (DeleteResult.success now,
        keep,
        deliveries.filter (fun d => !(d.messageId == messageId)),
        match message.r2Key with
        | some key => r2.filter (fun k => !(k == key))
        | none => r2)

/-! ## Theorems -/

theorem natBits_length (w x : Nat) : (natBits w x).length = w := by
  induction w generalizing x with
  | zero => rfl
  | succ w ih => simp [natBits, ih]

theorem bitsVal_go (bs : List Bool) (a : Nat) :
    bs.foldl (fun a b => 2 * a + (if b then 1 else 0)) a
      = a * 2 ^ bs.length + bitsVal bs := by
  induction bs generalizing a with
  | nil => simp [bitsVal]
  | cons b bs ih =>
    simp only [List.foldl_cons, List.length_cons, bitsVal]
    rw [ih, ih (2 * 0 + _)]
    ring

theorem bitsVal_cons (b : Bool) (bs : List Bool) :
    bitsVal (b :: bs) = (if b then 1 else 0) * 2 ^ bs.length + bitsVal bs := by
  have h := bitsVal_go bs (2 * 0 + (if b then 1 else 0))
  simpa [bitsVal] using h

theorem bitsVal_append (xs ys : List Bool) :
    bitsVal (xs ++ ys) = bitsVal xs * 2 ^ ys.length + bitsVal ys := by
  simp only [bitsVal, List.foldl_append]
  exact bitsVal_go ys _

theorem bitsVal_lt (bs : List Bool) : bitsVal bs < 2 ^ bs.length := by
  induction bs with
  | nil => simp [bitsVal]
  | cons b bs ih =>
    rw [bitsVal_cons]
    simp only [List.length_cons, pow_succ]
    have h1 : (if b then 1 else 0) * 2 ^ bs.length ≤ 2 ^ bs.length := by
      cases b <;> simp
    omega

/-- `natBits w` only looks at the value modulo `2 ^ w`. -/
theorem natBits_congr {x y : Nat} (w : Nat) (h : x % 2 ^ w = y % 2 ^ w) :
    natBits w x = natBits w y := by
  induction w generalizing x y with
  | zero => rfl
  | succ w ih =>
    simp only [natBits]
    have hx := Nat.testBit_mod_two_pow x (w + 1) w
    have hy := Nat.testBit_mod_two_pow y (w + 1) w
    have h1 : x.testBit w = y.testBit w := by
      have hxy : (x % 2 ^ (w + 1)).testBit w = (y % 2 ^ (w + 1)).testBit w := by rw [h]
      rw [hx, hy] at hxy
      simpa [Nat.lt_succ_self] using hxy
    have h2 : natBits w x = natBits w y := by
      apply ih
      have hxy : x % 2 ^ (w + 1) % 2 ^ w = y % 2 ^ (w + 1) % 2 ^ w := by rw [h]
      rwa [Nat.mod_mod_of_dvd _ (pow_dvd_pow 2 (Nat.le_succ w)),
        Nat.mod_mod_of_dvd _ (pow_dvd_pow 2 (Nat.le_succ w))] at hxy
    rw [h1, h2]

theorem natBits_mod {w m : Nat} (x : Nat) (h : w ≤ m) :
    natBits w (x % 2 ^ m) = natBits w x :=
  natBits_congr w (by rw [Nat.mod_mod_of_dvd _ (pow_dvd_pow 2 h)])

theorem bitsVal_natBits (w x : Nat) : bitsVal (natBits w x) = x % 2 ^ w := by
  induction w generalizing x with
  | zero => simp [natBits, bitsVal, Nat.mod_one]
  | succ w ih =>
    rw [natBits, bitsVal_cons, natBits_length, ih, Nat.testBit_to_div_mod]
    have h2 : x % 2 ^ (w + 1) = x % 2 ^ w + 2 ^ w * (x / 2 ^ w % 2) :=
      Nat.mod_pow_succ
    rcases Nat.mod_two_eq_zero_or_one (x / 2 ^ w) with h | h <;>
      simp [h, h2] <;> omega

theorem natBits_bitsVal (bs : List Bool) : natBits bs.length (bitsVal bs) = bs := by
  induction bs with
  | nil => rfl
  | cons b bs ih =>
    have hlt := bitsVal_lt bs
    have hpos : 0 < 2 ^ bs.length := Nat.pos_pow_of_pos _ (by norm_num)
    have hdiv : ((if b then 1 else 0) * 2 ^ bs.length + bitsVal bs) / 2 ^ bs.length
        = (if b then 1 else 0) := by
      rw [Nat.add_comm, Nat.add_mul_div_right _ _ hpos, Nat.div_eq_of_lt hlt,
        Nat.zero_add]
    have hmod : ((if b then 1 else 0) * 2 ^ bs.length + bitsVal bs) % 2 ^ bs.length
        = bitsVal bs % 2 ^ bs.length := by
      rw [Nat.add_comm, Nat.add_mul_mod_self_right]
    have hhead : ((if b then 1 else 0) * 2 ^ bs.length + bitsVal bs).testBit bs.length
        = b := by
      rw [Nat.testBit_to_div_mod, hdiv]
      cases b <;> simp
    have htail : natBits bs.length ((if b then 1 else 0) * 2 ^ bs.length + bitsVal bs)
        = bs := by
      rw [natBits_congr bs.length hmod]
      exact ih
    simp only [List.length_cons, natBits, bitsVal_cons]
    rw [hhead, htail]

/-- Splitting `natBits` at a bit boundary: high `a` bits, then low `b` bits. -/
theorem natBits_add (a b x : Nat) :
    natBits (a + b) x = natBits a (x >>> b) ++ natBits b x := by
  induction a with
  | zero => simp [natBits]
  | succ a ih =>
    have h : a + 1 + b = (a + b) + 1 := by omega
    rw [h, natBits, ih, natBits, List.cons_append, Nat.testBit_shiftRight,
      Nat.add_comm b a]

theorem remCh_length_lt (k : Nat) (hk : 0 < k) (bs : List Bool) :
    (remCh k bs).length < k := by
  rw [remCh]
  by_cases h : 0 < k ∧ k ≤ bs.length
  · rw [dif_pos h]
    exact remCh_length_lt k hk (bs.drop k)
  · rw [dif_neg h]
    omega
termination_by bs.length
decreasing_by simp only [List.length_drop]; omega

/-- Incremental chunking: the chunks of `s ++ t` are the chunks of `s`
followed by the chunks of the leftover of `s` glued onto `t`. -/
theorem chunk_append (k : Nat) (hk : 0 < k) (s t : List Bool) :
    fullCh k (s ++ t) = fullCh k s ++ fullCh k (remCh k s ++ t) ∧
      remCh k (s ++ t) = remCh k (remCh k s ++ t) := by
  by_cases h : k ≤ s.length
  · have h1 : (s ++ t).take k = s.take k := List.take_append_of_le_length h
    have h2 : (s ++ t).drop k = s.drop k ++ t := List.drop_append_of_le_length h
    have h3 : k ≤ (s ++ t).length := by simp only [List.length_append]; omega
    have hfs : fullCh k s = bitsVal (s.take k) :: fullCh k (s.drop k) := by
      rw [fullCh, dif_pos ⟨hk, h⟩]
    have hrs : remCh k s = remCh k (s.drop k) := by
      rw [remCh, dif_pos ⟨hk, h⟩]
    have ihd := chunk_append k hk (s.drop k) t
    constructor
    · rw [fullCh, dif_pos ⟨hk, h3⟩, h1, h2, hfs, hrs, ihd.1, List.cons_append]
    · rw [remCh, dif_pos ⟨hk, h3⟩, h2, hrs, ihd.2]
  · have h1 : fullCh k s = [] := by rw [fullCh, dif_neg (by omega)]
    have h2 : remCh k s = s := by rw [remCh, dif_neg (by omega)]
    rw [h1, h2, List.nil_append]
    exact ⟨rfl, rfl⟩
termination_by s.length
decreasing_by simp only [List.length_drop]; omega

theorem natBits_take (a w x : Nat) (h : a ≤ w) :
    (natBits w x).take a = natBits a (x >>> (w - a)) := by
  conv_lhs => rw [show w = a + (w - a) by omega, natBits_add]
  rw [List.take_append_of_le_length (by rw [natBits_length]),
    List.take_of_length_le (by rw [natBits_length])]

theorem natBits_drop (a w x : Nat) (h : a ≤ w) :
    (natBits w x).drop a = natBits (w - a) x := by
  conv_lhs => rw [show w = a + (w - a) by omega, natBits_add]
  rw [List.drop_append_of_le_length (by rw [natBits_length]),
    List.drop_eq_nil_of_le (by rw [natBits_length]), List.nil_append]

theorem remCh_natBits (k : Nat) (hk : 0 < k) (w x : Nat) :
    remCh k (natBits w x) = natBits (w % k) x := by
  by_cases h : k ≤ w
  · rw [remCh, dif_pos ⟨hk, by rw [natBits_length]; exact h⟩, natBits_drop k w x h,
      remCh_natBits k hk (w - k) x, ← Nat.mod_eq_sub_mod h]
  · rw [remCh, dif_neg (by rw [natBits_length]; omega),
      Nat.mod_eq_of_lt (by omega)]
termination_by w
decreasing_by omega

/-! ### Facts about `<<<`, `|||` and masks used by both loops -/

theorem shiftLeft_lor_hi (a b k : Nat) (hb : b < 2 ^ k) :
    ((a <<< k) ||| b) >>> k = a := by
  apply Nat.eq_of_testBit_eq
  intro j
  rw [Nat.testBit_shiftRight, Nat.testBit_lor, Nat.testBit_shiftLeft]
  have hbj : b.testBit (k + j) = false := by
    apply Nat.testBit_lt_two_pow
    exact lt_of_lt_of_le hb (Nat.pow_le_pow_right (by norm_num) (Nat.le_add_right k j))
  simp [hbj, Nat.le_add_right, Nat.add_sub_cancel_left]

theorem shiftLeft_lor_lo (a b k : Nat) (hb : b < 2 ^ k) :
    ((a <<< k) ||| b) % 2 ^ k = b := by
  apply Nat.eq_of_testBit_eq
  intro j
  rw [Nat.testBit_mod_two_pow, Nat.testBit_lor, Nat.testBit_shiftLeft]
  by_cases hj : j < k
  · simp [hj, Nat.not_le.mpr hj]
  · have hbj : b.testBit j = false := by
      apply Nat.testBit_lt_two_pow
      exact lt_of_lt_of_le hb (Nat.pow_le_pow_right (by norm_num) (by omega))
    simp [hj, hbj]

/-- Appending a value of `< 2 ^ k` below a 32-bit-wrapped shift extends the
pending bit list, as long as everything stays below bit 32. -/
theorem natBits_shift_push (w k buf v : Nat) (hv : v < 2 ^ k) (hw : w + k ≤ 32) :
    natBits (w + k) (js32 ((buf <<< k) ||| v)) = natBits w buf ++ natBits k v := by
  rw [js32, natBits_mod _ hw, natBits_add, shiftLeft_lor_hi _ _ _ hv,
    natBits_congr k (x := (buf <<< k) ||| v) (y := v)
      (by rw [shiftLeft_lor_lo _ _ _ hv, Nat.mod_eq_of_lt hv])]

theorem and_mask5 (x : Nat) : x &&& 0x1f = x % 2 ^ 5 := by
  have h := Nat.and_pow_two_sub_one_eq_mod x 5
  norm_num at h ⊢
  exact h

theorem and_mask8 (x : Nat) : x &&& 0xff = x % 2 ^ 8 := by
  have h := Nat.and_pow_two_sub_one_eq_mod x 8
  norm_num at h ⊢
  exact h

/-! ### The encoder loop equals chunking into 5-bit groups -/

theorem encodeDrain_low (buffer bits : Nat) (h : bits < 5) :
    encodeDrain buffer bits = ([], bits) := by
  interval_cases bits <;> rfl

theorem encodeDrain_spec (buffer bits : Nat) :
    encodeDrain buffer bits
      = ((fullCh 5 (natBits bits buffer)).map alphaChar, bits % 5) := by
  by_cases h : 5 ≤ bits
  · obtain ⟨b, rfl⟩ : ∃ b, bits = b + 5 := ⟨bits - 5, by omega⟩
    have htake : (natBits (b + 5) buffer).take 5 = natBits 5 (buffer >>> b) := by
      have := natBits_take 5 (b + 5) buffer h
      rwa [Nat.add_sub_cancel] at this
    have hdrop : (natBits (b + 5) buffer).drop 5 = natBits b buffer := by
      have := natBits_drop 5 (b + 5) buffer h
      rwa [Nat.add_sub_cancel] at this
    have hful : fullCh 5 (natBits (b + 5) buffer)
        = bitsVal ((natBits (b + 5) buffer).take 5)
            :: fullCh 5 ((natBits (b + 5) buffer).drop 5) := by
      rw [fullCh, dif_pos ⟨by norm_num, by rw [natBits_length]; exact h⟩]
    rw [show encodeDrain buffer (b + 5)
        = (alphaChar ((buffer >>> b) &&& 0x1f) :: (encodeDrain buffer b).1,
            (encodeDrain buffer b).2) from rfl,
      encodeDrain_spec buffer b, hful, htake, hdrop, and_mask5,
      ← bitsVal_natBits 5 (buffer >>> b), List.map_cons, Nat.add_mod_right]
  · rw [encodeDrain_low buffer bits (by omega), fullCh,
      dif_neg (by rw [natBits_length]; omega), Nat.mod_eq_of_lt (by omega)]
    simp
termination_by bits
decreasing_by omega

theorem encodeLoop_spec (l : List Nat) (buffer bits : Nat) (out : List Char)
    (hl : ∀ b ∈ l, b < 256) (hbits : bits < 5) :
    ∃ buffer',
      l.foldl encodeStepByte (buffer, bits, out)
        = (buffer', (bits + 8 * l.length) % 5,
            out ++ (fullCh 5 (natBits bits buffer ++ bytesBits l)).map alphaChar) ∧
      natBits ((bits + 8 * l.length) % 5) buffer'
        = remCh 5 (natBits bits buffer ++ bytesBits l) := by
  induction l generalizing buffer bits out with
  | nil =>
    refine ⟨buffer, ?_, ?_⟩
    · simp only [List.foldl_nil, List.length_nil, Nat.mul_zero, Nat.add_zero,
        bytesBits, List.flatMap_nil, List.append_nil]
      rw [Nat.mod_eq_of_lt hbits, fullCh,
        dif_neg (by rw [natBits_length]; omega)]
      simp
    · simp only [List.length_nil, Nat.mul_zero, Nat.add_zero, bytesBits,
        List.flatMap_nil, List.append_nil]
      rw [Nat.mod_eq_of_lt hbits, remCh, dif_neg (by rw [natBits_length]; omega)]
  | cons x rest ih =>
    have hx : x < 256 := hl x (List.mem_cons_self x rest)
    have hpush : natBits (bits + 8) (js32 ((buffer <<< 8) ||| x))
        = natBits bits buffer ++ natBits 8 x :=
      natBits_shift_push bits 8 buffer x (by simpa using hx) (by omega)
    have hstep : encodeStepByte (buffer, bits, out) x
        = (js32 ((buffer <<< 8) ||| x), (bits + 8) % 5,
            out ++ (fullCh 5 (natBits bits buffer ++ natBits 8 x)).map alphaChar) := by
      simp only [encodeStepByte, encodeDrain_spec, hpush]
    have hpend : natBits ((bits + 8) % 5) (js32 ((buffer <<< 8) ||| x))
        = remCh 5 (natBits bits buffer ++ natBits 8 x) := by
      rw [← hpush, remCh_natBits 5 (by norm_num)]
    obtain ⟨B', hB1, hB2⟩ := ih (js32 ((buffer <<< 8) ||| x)) ((bits + 8) % 5)
      (out ++ (fullCh 5 (natBits bits buffer ++ natBits 8 x)).map alphaChar)
      (fun b hb => hl b (List.mem_cons_of_mem x hb)) (Nat.mod_lt _ (by norm_num))
    have hstream : natBits bits buffer ++ bytesBits (x :: rest)
        = (natBits bits buffer ++ natBits 8 x) ++ bytesBits rest := by
      simp [bytesBits, List.flatMap_cons, List.append_assoc]
    have hchunk := chunk_append 5 (by norm_num)
      (natBits bits buffer ++ natBits 8 x) (bytesBits rest)
    rw [hpend] at hB1 hB2
    have hmodeq : ((bits + 8) % 5 + 8 * rest.length) % 5
        = (bits + 8 * (x :: rest).length) % 5 := by
      simp only [List.length_cons]
      omega
    refine ⟨B', ?_, ?_⟩
    · rw [List.foldl_cons, hstep, hB1, hmodeq, hstream, hchunk.1,
        List.map_append, List.append_assoc]
    · rw [hstream, hchunk.2, ← hB2, hmodeq]

theorem encodeFlush_spec (B bits : Nat) (hbits : bits < 5) :
    encodeFlush B bits
      = if bits = 0 then []
        else [alphaChar (bitsVal (natBits bits B) * 2 ^ (5 - bits))] := by
  by_cases h : 0 < bits
  · rw [encodeFlush, if_pos h, if_neg (by omega)]
    have h1 : js32 (B <<< (5 - bits)) &&& 0x1f = (B <<< (5 - bits)) % 2 ^ 5 := by
      rw [and_mask5, js32, Nat.mod_mod_of_dvd _ (pow_dvd_pow 2 (by norm_num))]
    have h2 : (B <<< (5 - bits)) % 2 ^ 5 = (B % 2 ^ bits) * 2 ^ (5 - bits) := by
      rw [Nat.shiftLeft_eq,
        show (2 : Nat) ^ 5 = 2 ^ bits * 2 ^ (5 - bits) by
          rw [← pow_add]; congr 1; omega]
      exact Nat.mul_mod_mul_right _ _ _
    rw [h1, h2, bitsVal_natBits]
  · rw [encodeFlush, if_neg h, if_pos (by omega)]

theorem padEqGo_spec (fuel : Nat) (s : List Char)
    (hf : (8 - s.length % 8) % 8 ≤ fuel) :
    padEqGo fuel s = s ++ List.replicate ((8 - s.length % 8) % 8) '=' := by
  induction fuel generalizing s with
  | zero =>
    have h0 : (8 - s.length % 8) % 8 = 0 := by omega
    rw [h0, padEqGo, List.replicate_zero, List.append_nil]
  | succ fuel ih =>
    by_cases h : s.length % 8 = 0
    · rw [padEqGo, if_pos h, h]
      simp
    · rw [padEqGo, if_neg h, ih (s ++ ['='])
        (by simp only [List.length_append, List.length_cons, List.length_nil]; omega),
        List.append_assoc]
      congr 1
      have hlen : (s ++ ['=']).length = s.length + 1 := by simp
      have hk : (8 - s.length % 8) % 8 = (8 - (s.length + 1) % 8) % 8 + 1 := by omega
      rw [hlen, hk, List.replicate_succ]
      rfl

/-- `padEq` appends exactly the `'='` characters that complete a block of 8. -/
theorem padEq_spec (s : List Char) :
    padEq s = s ++ List.replicate ((8 - s.length % 8) % 8) '=' :=
  padEqGo_spec 8 s (by omega)

/-- `encodeBase32` produces exactly the alphabet characters of the 5-bit
chunking of the input bit stream, plus `'='` padding to a multiple of 8. -/
theorem encodeBase32Chars_spec (b : List Nat) (hb : ∀ x ∈ b, x < 256) :
    encodeBase32Chars b = padEq ((enc5vals (bytesBits b)).map alphaChar) := by
  obtain ⟨B', h1, h2⟩ := encodeLoop_spec b 0 0 [] hb (by norm_num)
  have hz : natBits 0 0 = [] := rfl
  rw [hz, List.nil_append] at h1 h2
  simp only [encodeBase32Chars, h1, List.nil_append]
  congr 1
  rw [encodeFlush_spec B' _ (Nat.mod_lt _ (by norm_num)), enc5vals, List.map_append]
  congr 1
  by_cases h : remCh 5 (bytesBits b) = []
  · have hlen : ((0 : Nat) + 8 * b.length) % 5 = 0 := by
      have := congrArg List.length h2
      rw [natBits_length, h, List.length_nil] at this
      exact this
    rw [if_pos hlen, h, if_pos rfl]
    rfl
  · have hlen : ((0 : Nat) + 8 * b.length) % 5 ≠ 0 := by
      intro hc
      have := congrArg List.length h2
      rw [natBits_length, hc] at this
      exact h (List.length_eq_zero.mp this.symm)
    rw [if_neg hlen, if_neg h, ← h2, List.map_singleton, natBits_length]

/-! ### The decoder loop equals chunking into bytes -/

theorem base32Index_alphaChar : ∀ v, v < 32 → base32Index (alphaChar v) = some v := by
  decide

theorem toLower_alphaChar : ∀ v, v < 32 → (alphaChar v).toLower = alphaChar v := by
  decide

theorem alphaChar_ne_pad : ∀ v, v < 32 → alphaChar v ≠ '=' := by
  decide

/-- Cleaning an encoded string removes exactly the `'='` padding. -/
theorem cleanBase32_spec (vals : List Nat) (h : ∀ v ∈ vals, v < 32) (k : Nat) :
    cleanBase32 (vals.map alphaChar ++ List.replicate k '=') = vals.map alphaChar := by
  unfold cleanBase32
  rw [List.map_append, List.filter_append, List.map_map,
    show List.map (Char.toLower ∘ alphaChar) vals = List.map alphaChar vals from
      List.map_eq_map_iff.mpr (fun v hv => toLower_alphaChar v (h v hv)),
    show List.map Char.toLower (List.replicate k '=') = List.replicate k '=' by
      rw [List.map_replicate, show '='.toLower = '=' from by decide]]
  rw [List.filter_eq_self.mpr, show (List.replicate k '=').filter
      (fun c => (c ≠ '=' : Bool)) = [] by simp, List.append_nil]
  intro c hc
  obtain ⟨v, hv, rfl⟩ := List.mem_map.mp hc
  simpa using alphaChar_ne_pad v (h v hv)

theorem decodeLoop_spec (vals : List Nat) (buffer bits : Nat) (out : List Nat)
    (hvals : ∀ v ∈ vals, v < 32) (hbits : bits < 8) :
    decodeLoop (vals.map alphaChar) buffer bits out
      = some (out ++ fullCh 8 (natBits bits buffer ++ vals.flatMap (natBits 5))) := by
  induction vals generalizing buffer bits out with
  | nil =>
    simp only [List.map_nil, decodeLoop, List.flatMap_nil, List.append_nil]
    rw [fullCh, dif_neg (by rw [natBits_length]; omega), List.append_nil]
  | cons v rest ih =>
    have hv : v < 32 := hvals v (List.mem_cons_self v rest)
    have hpush : natBits (bits + 5) (js32 ((buffer <<< 5) ||| v))
        = natBits bits buffer ++ natBits 5 v :=
      natBits_shift_push bits 5 buffer v (by simpa using hv) (by omega)
    have hstream : natBits bits buffer ++ (v :: rest).flatMap (natBits 5)
        = (natBits bits buffer ++ natBits 5 v) ++ rest.flatMap (natBits 5) := by
      simp [List.flatMap_cons, List.append_assoc]
    have hlenP : (natBits bits buffer ++ natBits 5 v).length = bits + 5 := by
      simp [natBits_length]
    simp only [List.map_cons, decodeLoop, base32Index_alphaChar v hv]
    by_cases h8 : 8 ≤ bits + 5
    · rw [if_pos h8, ih _ _ _ (fun w hw => hvals w (List.mem_cons_of_mem v hw))
        (by omega)]
      have htake : ((natBits bits buffer ++ natBits 5 v)).take 8
          = natBits 8 (js32 ((buffer <<< 5) ||| v) >>> (bits + 5 - 8)) := by
        rw [← hpush, natBits_take 8 (bits + 5) _ h8]
      have hdrop : ((natBits bits buffer ++ natBits 5 v)).drop 8
          = natBits (bits + 5 - 8) (js32 ((buffer <<< 5) ||| v)) := by
        rw [← hpush, natBits_drop 8 (bits + 5) _ h8]
      have hval : (js32 ((buffer <<< 5) ||| v) >>> (bits + 5 - 8)) &&& 0xff
          = bitsVal ((natBits bits buffer ++ natBits 5 v).take 8) := by
        rw [htake, bitsVal_natBits, and_mask8]
      have hful : fullCh 8 ((natBits bits buffer ++ natBits 5 v)
            ++ rest.flatMap (natBits 5))
          = bitsVal ((natBits bits buffer ++ natBits 5 v).take 8)
            :: fullCh 8 ((natBits bits buffer ++ natBits 5 v).drop 8
                ++ rest.flatMap (natBits 5)) := by
        rw [fullCh, dif_pos ⟨by norm_num, by
            rw [List.length_append, hlenP]; omega⟩,
          List.take_append_of_le_length (by rw [hlenP]; omega),
          List.drop_append_of_le_length (by rw [hlenP]; omega)]
      rw [hstream, hful, hval, hdrop]
      simp [List.append_assoc]
    · rw [if_neg h8, ih _ _ _ (fun w hw => hvals w (List.mem_cons_of_mem v hw))
        (by omega), hpush, hstream]

/-! ### Reassembling the bit stream -/

theorem fullCh_flat (k : Nat) (hk : 0 < k) (S : List Bool) :
    (fullCh k S).flatMap (natBits k) ++ remCh k S = S := by
  by_cases h : k ≤ S.length
  · have htk : (S.take k).length = k := by
      rw [List.length_take]
      omega
    have h3 := natBits_bitsVal (S.take k)
    rw [htk] at h3
    rw [fullCh, dif_pos ⟨hk, h⟩, remCh, dif_pos ⟨hk, h⟩, List.flatMap_cons, h3,
      List.append_assoc, fullCh_flat k hk (S.drop k), List.take_append_drop]
  · rw [fullCh, dif_neg (by omega), remCh, dif_neg (by omega), List.flatMap_nil,
      List.nil_append]
termination_by S.length
decreasing_by simp only [List.length_drop]; omega

theorem natBits_zero (p : Nat) : natBits p 0 = List.replicate p false := by
  induction p with
  | zero => rfl
  | succ p ih => simp [natBits, ih, Nat.zero_testBit, List.replicate_succ]

theorem bitsVal_replicate_false (p : Nat) : bitsVal (List.replicate p false) = 0 := by
  rw [← natBits_zero, bitsVal_natBits, Nat.zero_mod]

theorem fullCh_lt (k : Nat) (hk : 0 < k) (S : List Bool) :
    ∀ v ∈ fullCh k S, v < 2 ^ k := by
  by_cases h : k ≤ S.length
  · rw [fullCh, dif_pos ⟨hk, h⟩]
    intro v hv
    rcases List.mem_cons.mp hv with rfl | hv
    · have htk : (S.take k).length = k := by
        rw [List.length_take]
        omega
      calc bitsVal (S.take k) < 2 ^ (S.take k).length := bitsVal_lt _
        _ = 2 ^ k := by rw [htk]
    · exact fullCh_lt k hk (S.drop k) v hv
  · rw [fullCh, dif_neg (by omega)]
    intro v hv
    exact absurd hv (List.not_mem_nil v)
termination_by S.length
decreasing_by simp only [List.length_drop]; omega

theorem enc5vals_lt (S : List Bool) : ∀ v ∈ enc5vals S, v < 32 := by
  intro v hv
  rcases List.mem_append.mp hv with hv | hv
  · simpa using fullCh_lt 5 (by norm_num) S v hv
  · by_cases h : remCh 5 S = []
    · rw [if_pos h] at hv
      exact absurd hv (List.not_mem_nil v)
    · rw [if_neg h] at hv
      rcases List.mem_singleton.mp hv with rfl
      have hr := remCh_length_lt 5 (by norm_num) S
      have h1 : bitsVal (remCh 5 S) * 2 ^ (5 - (remCh 5 S).length)
          = bitsVal (remCh 5 S ++ List.replicate (5 - (remCh 5 S).length) false) := by
        rw [bitsVal_append, bitsVal_replicate_false, List.length_replicate,
          Nat.add_zero]
      have h2 : (remCh 5 S ++ List.replicate (5 - (remCh 5 S).length) false).length
          = 5 := by
        simp only [List.length_append, List.length_replicate]
        omega
      calc bitsVal (remCh 5 S) * 2 ^ (5 - (remCh 5 S).length)
          < 2 ^ (remCh 5 S ++ List.replicate (5 - (remCh 5 S).length) false).length :=
            h1 ▸ bitsVal_lt _
        _ = 32 := by rw [h2]; norm_num

/-- Flattened back to bits, the encoder output is the input stream plus
fewer than 8 padding zero bits. -/
theorem enc5vals_flat (S : List Bool) :
    ∃ p, p < 8 ∧ (enc5vals S).flatMap (natBits 5) = S ++ List.replicate p false := by
  unfold enc5vals
  by_cases h : remCh 5 S = []
  · refine ⟨0, by norm_num, ?_⟩
    rw [if_pos h, List.append_nil, List.replicate_zero, List.append_nil]
    have := fullCh_flat 5 (by norm_num) S
    rwa [h, List.append_nil] at this
  · have hr := remCh_length_lt 5 (by norm_num) S
    refine ⟨5 - (remCh 5 S).length, by omega, ?_⟩
    rw [if_neg h, List.flatMap_append, List.flatMap_singleton]
    have h1 : bitsVal (remCh 5 S) * 2 ^ (5 - (remCh 5 S).length)
        = bitsVal (remCh 5 S ++ List.replicate (5 - (remCh 5 S).length) false) := by
      rw [bitsVal_append, bitsVal_replicate_false, List.length_replicate,
        Nat.add_zero]
    have h2 : (remCh 5 S ++ List.replicate (5 - (remCh 5 S).length) false).length
        = 5 := by
      simp only [List.length_append, List.length_replicate]
      omega
    have h3 := natBits_bitsVal
      (remCh 5 S ++ List.replicate (5 - (remCh 5 S).length) false)
    rw [h2] at h3
    rw [h1, h3, ← List.append_assoc, fullCh_flat 5 (by norm_num) S]

/-- Reading full bytes off the bit stream of a byte list (plus fewer than
8 trailing zero bits) recovers the byte list. -/
theorem fullCh8_bytes (b : List Nat) (hb : ∀ x ∈ b, x < 256) (p : Nat) (hp : p < 8) :
    fullCh 8 (bytesBits b ++ List.replicate p false) = b := by
  induction b with
  | nil =>
    rw [bytesBits, List.flatMap_nil, List.nil_append, fullCh,
      dif_neg (by rw [List.length_replicate]; omega)]
  | cons x rest ih =>
    have hx : x < 256 := hb x (List.mem_cons_self x rest)
    have hstream : bytesBits (x :: rest) ++ List.replicate p false
        = natBits 8 x ++ (bytesBits rest ++ List.replicate p false) := by
      simp [bytesBits, List.flatMap_cons, List.append_assoc]
    rw [hstream, fullCh, dif_pos ⟨by norm_num, by
        simp only [List.length_append, natBits_length]; omega⟩,
      List.take_append_of_le_length (by rw [natBits_length]),
      List.take_of_length_le (by rw [natBits_length]),
      List.drop_append_of_le_length (by rw [natBits_length]),
      List.drop_eq_nil_of_le (by rw [natBits_length]), List.nil_append,
      bitsVal_natBits, Nat.mod_eq_of_lt (by simpa using hx),
      ih (fun y hy => hb y (List.mem_cons_of_mem x hy))]

/-- C10: for every byte string `b`, `decodeBase32 (encodeBase32 b) = b`,
even though `encodeBase32` appends `'='` padding up to a multiple of 8
characters (second conjunct) and `decodeBase32` lowercases and strips the
padding before decoding. -/
theorem c10_base32_roundtrip (b : List Nat) (hb : ∀ x ∈ b, x < 256) :
    decodeBase32 (encodeBase32 b) = some b ∧ (encodeBase32 b).length % 8 = 0 := by
  obtain ⟨p, hp, hflat⟩ := enc5vals_flat (bytesBits b)
  have hvals := enc5vals_lt (bytesBits b)
  have henc : (encodeBase32 b).data
      = (enc5vals (bytesBits b)).map alphaChar
        ++ List.replicate
            ((8 - ((enc5vals (bytesBits b)).map alphaChar).length % 8) % 8) '=' := by
    show encodeBase32Chars b = _
    rw [encodeBase32Chars_spec b hb, padEq_spec]
  constructor
  · rw [decodeBase32, henc, cleanBase32_spec _ hvals _,
      decodeLoop_spec _ 0 0 [] hvals (by norm_num),
      show natBits 0 0 = [] from rfl, List.nil_append, List.nil_append, hflat,
      fullCh8_bytes b hb p hp]
  · show (encodeBase32 b).data.length % 8 = 0
    rw [henc]
    simp only [List.length_append, List.length_replicate]
    omega

theorem c10_base32_roundtrip_witness :
    (∀ x ∈ [104, 105, 0, 255], x < 256) ∧
      (decodeBase32 (encodeBase32 [104, 105, 0, 255]) = some [104, 105, 0, 255] ∧
        (encodeBase32 [104, 105, 0, 255]).length % 8 = 0) :=
  ⟨by decide, c10_base32_roundtrip [104, 105, 0, 255] (by decide)⟩

theorem shaRound_length (st : List Nat) (kw : Nat × Nat) :
    (shaRound st kw).length = 8 := rfl

theorem foldl_shaRound_length (l : List (Nat × Nat)) (st : List Nat)
    (h : st.length = 8) : (l.foldl shaRound st).length = 8 := by
  induction l generalizing st with
  | nil => exact h
  | cons p rest ih => exact ih _ (shaRound_length _ _)

theorem compressBlock_length (H blk : List Nat) (h : H.length = 8) :
    (compressBlock H blk).length = 8 := by
  rw [compressBlock, List.length_zipWith, h,
    foldl_shaRound_length _ _ h]
  rfl

theorem foldl_compress_length (bs : List (List Nat)) (H : List Nat)
    (h : H.length = 8) : (bs.foldl compressBlock H).length = 8 := by
  induction bs generalizing H with
  | nil => exact h
  | cons b rest ih => exact ih _ (compressBlock_length _ _ h)

theorem flatMap_words_length (L : List Nat) :
    (L.flatMap (fun w =>
      [(w >>> 24) % 256, (w >>> 16) % 256, (w >>> 8) % 256, w % 256])).length
      = 4 * L.length := by
  induction L with
  | nil => rfl
  | cons w rest ih =>
    rw [List.flatMap_cons, List.length_append, ih, List.length_cons]
    simp only [List.length_cons, List.length_nil]
    omega

theorem sha256_length (m : List Nat) : (sha256 m).length = 32 := by
  rw [sha256, flatMap_words_length,
    foldl_compress_length (blocks64 (shaPad m)) shaH0 rfl]

theorem sha256_lt (m : List Nat) : ∀ x ∈ sha256 m, x < 256 := by
  intro x hx
  rw [sha256] at hx
  obtain ⟨w, _, hx⟩ := List.mem_flatMap.mp hx
  simp only [List.mem_cons, List.not_mem_nil, or_false] at hx
  rcases hx with rfl | rfl | rfl | rfl <;> exact Nat.mod_lt _ (by norm_num)

theorem computeCID_eq (m : List Nat) :
    computeCID m
      = ⟨'b' :: ((encodeBase32Chars ([1, 113, 18, 32] ++ sha256 m)).filter
          (fun c => c ≠ '=')).map Char.toLower⟩ := rfl

/-- The bytes fed to base32 inside `computeCID` are genuine bytes. -/
theorem cidBytes_lt (m : List Nat) : ∀ x ∈ [1, 113, 18, 32] ++ sha256 m, x < 256 := by
  intro x hx
  rcases List.mem_append.mp hx with h | h
  · simp only [List.mem_cons, List.not_mem_nil, or_false] at h
    rcases h with rfl | rfl | rfl | rfl <;> norm_num
  · exact sha256_lt m x h

/-- Dropping the `'='` padding from an encoded string leaves exactly the
alphabet characters of the 5-bit chunking. -/
theorem noPad_encode (x : List Nat) (hx : ∀ a ∈ x, a < 256) :
    (encodeBase32Chars x).filter (fun c => c ≠ '=')
      = (enc5vals (bytesBits x)).map alphaChar := by
  rw [encodeBase32Chars_spec x hx, padEq_spec, List.filter_append,
    List.filter_eq_self.mpr (fun c hc => by
      obtain ⟨v, hv, rfl⟩ := List.mem_map.mp hc
      simpa using alphaChar_ne_pad v (enc5vals_lt _ v hv)),
    show (List.replicate ((8 - ((enc5vals (bytesBits x)).map alphaChar).length % 8)
        % 8) '=').filter (fun c => (c ≠ '=' : Bool)) = [] by simp,
    List.append_nil]

theorem toLower_map_alpha (vals : List Nat) (h : ∀ v ∈ vals, v < 32) :
    (vals.map alphaChar).map Char.toLower = vals.map alphaChar := by
  rw [List.map_map]
  exact List.map_eq_map_iff.mpr (fun v hv => toLower_alphaChar v (h v hv))

/-- The content of a computed CID after the `'b'` marker. -/
theorem computeCID_data (m : List Nat) :
    (computeCID m).data
      = 'b' :: (enc5vals (bytesBits ([1, 113, 18, 32] ++ sha256 m))).map alphaChar := by
  rw [computeCID_eq, noPad_encode _ (cidBytes_lt m),
    toLower_map_alpha _ (enc5vals_lt _)]

/-- A computed CID decodes back to the prefixed multihash bytes. -/
theorem cid_vals_decode (m : List Nat) :
    decodeLoop ((enc5vals (bytesBits ([1, 113, 18, 32] ++ sha256 m))).map alphaChar)
        0 0 []
      = some ([1, 113, 18, 32] ++ sha256 m) := by
  obtain ⟨p, hp, hflat⟩ := enc5vals_flat (bytesBits ([1, 113, 18, 32] ++ sha256 m))
  rw [decodeLoop_spec _ 0 0 [] (enc5vals_lt _) (by norm_num),
    show natBits 0 0 = [] from rfl, List.nil_append, List.nil_append, hflat,
    fullCh8_bytes _ (cidBytes_lt m) p hp]

/-- C5: `computeCID b` is the literal `'b'` followed by the unpadded
lowercase base32 encoding of `0x01 ∥ 0x71 ∥ 0x12 ∥ 0x20 ∥ SHA-256(b)`;
`verifyCID (computeCID b) b` holds; `verifyCID` compares by exact string
equality; and a modified byte string fails verification against the
original CID exactly when its SHA-256 digest differs. -/
theorem c5_cid_correct (b : List Nat) :
    computeCID b
        = ⟨'b' :: ((encodeBase32 ([0x01, 0x71, 0x12, 0x20] ++ sha256 b)).data.filter
            (fun c => c ≠ '='))⟩
      ∧ verifyCID (computeCID b) b = true
      ∧ (∀ cid, verifyCID cid b = (computeCID b == cid))
      ∧ (∀ b', verifyCID (computeCID b) b' = true ↔ sha256 b' = sha256 b) := by
  refine ⟨?_, ?_, fun _ => rfl, fun b' => ⟨?_, ?_⟩⟩
  · refine String.ext ?_
    rw [computeCID_data]
    show _ = 'b' :: (encodeBase32Chars ([1, 113, 18, 32] ++ sha256 b)).filter
      (fun c => c ≠ '=')
    rw [noPad_encode _ (cidBytes_lt b)]
  · exact beq_self_eq_true _
  · intro hv
    have heq : computeCID b' = computeCID b := eq_of_beq hv
    have hdata := congrArg String.data heq
    rw [computeCID_data, computeCID_data] at hdata
    have hmap := List.tail_eq_of_cons_eq hdata
    have hdec := congrArg (fun l => decodeLoop l 0 0 []) hmap
    simp only [cid_vals_decode] at hdec
    exact List.append_cancel_left (Option.some.inj hdec)
  · intro hsha
    show (computeCID b' == computeCID b) = true
    rw [computeCID_eq b', computeCID_eq b, hsha]
    exact beq_self_eq_true _

set_option maxRecDepth 10000 in
theorem c5_cid_correct_witness :
    verifyCID (computeCID [1, 2, 3]) [1, 2, 3] = true ∧
      verifyCID (computeCID [1, 2, 3]) [1, 2, 4] = false := by
  refine ⟨(c5_cid_correct [1, 2, 3]).2.1, ?_⟩
  have h := ((c5_cid_correct [1, 2, 3]).2.2.2 [1, 2, 4])
  have hne : sha256 [1, 2, 4] ≠ sha256 [1, 2, 3] := by decide
  have h2 : ¬ verifyCID (computeCID [1, 2, 3]) [1, 2, 4] = true :=
    fun hv => hne (h.mp hv)
  simpa using h2

/-- C9: phone encryption is a pure function of (key, phone) — the full
data flow is exhibited on the right-hand side, with no randomness input —
the AES-GCM nonce is exactly the first 12 bytes of SHA-256 of the phone
plaintext, and phones whose SHA-256 prefixes differ get different nonces. -/
theorem c9_phone_encryption_deterministic (env : CryptoEnv)
    (phone key : String) :
    encryptPhone env phone key
        = env.btoa (env.aesGcmEncrypt (env.atob key)
            ((sha256 (utf8Encode phone)).take 12) (utf8Encode phone))
      ∧ deriveNonce phone = (sha256 (utf8Encode phone)).take 12
      ∧ ∀ p1 p2 : String,
          (sha256 (utf8Encode p1)).take 12 ≠ (sha256 (utf8Encode p2)).take 12
          → deriveNonce p1 ≠ deriveNonce p2 :=
  ⟨rfl, rfl, fun _ _ h => h⟩

set_option maxRecDepth 10000 in
theorem c9_phone_encryption_deterministic_witness :
    deriveNonce "+14155551234" = (sha256 (utf8Encode "+14155551234")).take 12
      ∧ deriveNonce "+14155551234" ≠ deriveNonce "+14155551235" :=
  ⟨(c9_phone_encryption_deterministic ⟨fun _ => [], fun _ _ d => d, fun _ => ""⟩
      "+14155551234" "").2.1,
    (c9_phone_encryption_deterministic ⟨fun _ => [], fun _ _ d => d, fun _ => ""⟩
      "+14155551234" "").2.2 "+14155551234" "+14155551235" (by decide)⟩

/-- A salt-row lookup that succeeds still succeeds, with the same row,
after one more get-or-create call: rows are only inserted when absent,
never updated or removed. -/
theorem getOrCreateSaltRow_preserves (salts : List (String × String))
    (q fresh ep : String) (row : String × String)
    (h : salts.find? (fun p => p.1 == ep) = some row) :
    (getOrCreateSaltRow salts q fresh).2.find? (fun p => p.1 == ep) = some row := by
  simp only [getOrCreateSaltRow]
  cases hq : salts.find? (fun p => p.1 == q) with
  | some r => simpa [hq] using h
  | none =>
    simp only [hq]
    rw [List.find?_append, h]
    rfl

/-- A stored binding survives any later sequence of salt calls. -/
theorem saltRow_persists (env : CryptoEnv) (key : String)
    (calls : List (String × String)) (salts : List (String × String))
    (ep : String) (row : String × String)
    (h : salts.find? (fun p => p.1 == ep) = some row) :
    (applySaltCalls env key salts calls).find? (fun p => p.1 == ep) = some row := by
  induction calls generalizing salts with
  | nil => exact h
  | cons c rest ih =>
    show (applySaltCalls env key
      ((getOrCreateAccountSalt env key salts c.1 c.2).2) rest).find? _ = _
    exact ih _ (getOrCreateSaltRow_preserves salts _ c.2 ep row h)

/-- C8: the account salt is write-once.  If a call for `phone` creates the
salt (`created = true`), then after any interleaved sequence of further
salt calls, a call for `phone` returns exactly that salt with
`created = false`, and the stored row is still the originally written
pair. -/
theorem c8_salt_write_once (env : CryptoEnv) (key : String)
    (salts : List (String × String)) (phone fresh : String)
    (hcreated : (getOrCreateAccountSalt env key salts phone fresh).1.2 = true) :
    ∀ (calls : List (String × String)) (fresh' : String),
      (getOrCreateAccountSalt env key
          (applySaltCalls env key
            (getOrCreateAccountSalt env key salts phone fresh).2 calls)
          phone fresh').1 = (fresh, false)
      ∧ (applySaltCalls env key
            (getOrCreateAccountSalt env key salts phone fresh).2 calls).find?
          (fun p => p.1 == encryptPhone env phone key)
          = some (encryptPhone env phone key, fresh) := by
  intro calls fresh'
  have hmiss : salts.find? (fun p => p.1 == encryptPhone env phone key) = none := by
    cases hq : salts.find? (fun p => p.1 == encryptPhone env phone key) with
    | none => rfl
    | some r =>
      exfalso
      simp only [getOrCreateAccountSalt, getOrCreateSaltRow, hq] at hcreated
      exact Bool.false_ne_true hcreated
  have hstate : (getOrCreateAccountSalt env key salts phone fresh).2
      = salts ++ [(encryptPhone env phone key, fresh)] := by
    simp only [getOrCreateAccountSalt, getOrCreateSaltRow, hmiss]
  have hfind1 : (getOrCreateAccountSalt env key salts phone fresh).2.find?
      (fun p => p.1 == encryptPhone env phone key)
      = some (encryptPhone env phone key, fresh) := by
    rw [hstate, List.find?_append, hmiss]
    simp [List.find?]
  have hpersist := saltRow_persists env key calls _ _ _ hfind1
  refine ⟨?_, hpersist⟩
  generalize hA : applySaltCalls env key
    (getOrCreateAccountSalt env key salts phone fresh).2 calls = st at hpersist ⊢
  simp only [getOrCreateAccountSalt, getOrCreateSaltRow, hpersist]

set_option maxRecDepth 10000 in
theorem c8_salt_write_once_witness :
    (getOrCreateAccountSalt
        ⟨fun _ => [], fun _ _ d => d, fun bs => ⟨bs.map Char.ofNat⟩⟩ "k"
        [] "+14155551234" "SALT1").1.2 = true
      ∧ ((getOrCreateAccountSalt
            ⟨fun _ => [], fun _ _ d => d, fun bs => ⟨bs.map Char.ofNat⟩⟩ "k"
            (applySaltCalls
              ⟨fun _ => [], fun _ _ d => d, fun bs => ⟨bs.map Char.ofNat⟩⟩ "k"
              (getOrCreateAccountSalt
                ⟨fun _ => [], fun _ _ d => d, fun bs => ⟨bs.map Char.ofNat⟩⟩ "k"
                [] "+14155551234" "SALT1").2 [("+15005550001", "SALT2")])
            "+14155551234" "SALT3").1 = ("SALT1", false)
          ∧ (applySaltCalls
              ⟨fun _ => [], fun _ _ d => d, fun bs => ⟨bs.map Char.ofNat⟩⟩ "k"
              (getOrCreateAccountSalt
                ⟨fun _ => [], fun _ _ d => d, fun bs => ⟨bs.map Char.ofNat⟩⟩ "k"
                [] "+14155551234" "SALT1").2 [("+15005550001", "SALT2")]).find?
            (fun p => p.1 == encryptPhone
              ⟨fun _ => [], fun _ _ d => d, fun bs => ⟨bs.map Char.ofNat⟩⟩
              "+14155551234" "k")
            = some (encryptPhone
                ⟨fun _ => [], fun _ _ d => d, fun bs => ⟨bs.map Char.ofNat⟩⟩
                "+14155551234" "k", "SALT1")) :=
  ⟨by decide,
    c8_salt_write_once ⟨fun _ => [], fun _ _ d => d, fun bs => ⟨bs.map Char.ofNat⟩⟩
      "k" [] "+14155551234" "SALT1" (by decide) [("+15005550001", "SALT2")] "SALT3"⟩

/-- C4, evaluated at the failing input: the validator rejects every
`did:phone:` DID — here `did:phone:` followed by 64 `'a'`s, a well-formed
phone DID — although the spec, the repository README and the handlers'
own documentation state both shapes are accepted.  The legacy
`did:buds:<base58>` shape is accepted (second conjunct), and so are
non-base58 alphanumerics such as `did:buds:0OIl` (third conjunct), which
the claim says should be rejected. -/
theorem c4_did_validator_rejects_phone_dids :
    didSchemaAccepts ⟨'d' :: 'i' :: 'd' :: ':' :: 'p' :: 'h' :: 'o' :: 'n' :: 'e'
        :: ':' :: List.replicate 64 'a'⟩ = false
      ∧ didSchemaAccepts "did:buds:5dGHK7P9mNqR8vZw3T" = true
      ∧ didSchemaAccepts "did:buds:0OIl" = true := by
  decide

/-- C3 counterexample: a `jar.created` receipt processed with assigned
sequence number 2 still writes an owner row.  Starting from the state a
legitimate genesis left (`alice` the owner of `jarJ`), processing a
`jar.created` receipt from `bob` at sequence 2 adds a second owner row —
the claim says no receipt at a sequence later than 1 can create or
reassign an owner row. -/
theorem c3_counterexample :
    processJarReceipt
        [⟨"jarJ", "did:phone:alice", "active", "owner", 100, none, some "cidA", none⟩]
        "jarJ" "cidB" ⟨"jar.created", "did:phone:bob", 200, none, none⟩ 2
      = [⟨"jarJ", "did:phone:alice", "active", "owner", 100, none, some "cidA", none⟩,
         ⟨"jarJ", "did:phone:bob", "active", "owner", 200, none, some "cidB", none⟩] := by
  decide

/-- C3 amended: `processJarReceipt` writes the `(active, owner)` row for
the sender of every `jar.created` receipt regardless of the assigned
sequence number — the result does not depend on the sequence at all, and
the owner row is always present afterwards. -/
theorem c3_owner_written_at_any_sequence (members : List MemberRow)
    (jarId cid : String) (r : JarReceiptPayload) (seq seq' : Nat)
    (h : r.receipt_type = "jar.created") :
    processJarReceipt members jarId cid r seq
        = processJarReceipt members jarId cid r seq'
      ∧ (⟨jarId, r.sender_did, "active", "owner", r.timestamp, none, some cid, none⟩
          : MemberRow) ∈ processJarReceipt members jarId cid r seq := by
  refine ⟨rfl, ?_⟩
  simp only [processJarReceipt, if_pos h, upsertMember]
  exact List.mem_append_right _ (List.mem_singleton.mpr rfl)

theorem c3_owner_written_at_any_sequence_witness :
    ("jar.created" = "jar.created")
      ∧ (processJarReceipt [] "j" "c" ⟨"jar.created", "did:phone:d", 0, none, none⟩ 2
          = processJarReceipt [] "j" "c" ⟨"jar.created", "did:phone:d", 0, none, none⟩ 7
        ∧ (⟨"j", "did:phone:d", "active", "owner", 0, none, some "c", none⟩
            : MemberRow) ∈ processJarReceipt [] "j" "c"
              ⟨"jar.created", "did:phone:d", 0, none, none⟩ 2) :=
  ⟨rfl, c3_owner_written_at_any_sequence [] "j" "c"
    ⟨"jar.created", "did:phone:d", 0, none, none⟩ 2 7 rfl⟩

theorem foldl_max_acc_le (l : List Nat) (a : Nat) : a ≤ l.foldl max a := by
  induction l generalizing a with
  | nil => exact Nat.le_refl a
  | cons x xs ih => exact Nat.le_trans (Nat.le_max_left a x) (ih (max a x))

theorem mem_le_foldl_max (l : List Nat) (a x : Nat) (hx : x ∈ l) :
    x ≤ l.foldl max a := by
  induction l generalizing a with
  | nil => exact absurd hx (List.not_mem_nil x)
  | cons y ys ih =>
    rcases List.mem_cons.mp hx with rfl | hx
    · exact Nat.le_trans (Nat.le_max_right a x) (foldl_max_acc_le ys (max a x))
    · exact ih (max a y) hx

/-- `maxSeq` as a fold over the sequence numbers of the jar's rows. -/
theorem maxSeq_eq_foldl (receipts : List ReceiptRow) (jar : String) :
    maxSeq receipts jar
      = ((receipts.filter (fun r => r.jarId == jar)).map
          (fun r => r.sequenceNumber)).foldl max 0 := by
  rw [maxSeq, List.foldl_map]

/-- Every stored sequence of a jar is at most `maxSeq`. -/
theorem le_maxSeq (receipts : List ReceiptRow) (jar : String) (r : ReceiptRow)
    (hr : r ∈ receipts) (hj : r.jarId = jar) :
    r.sequenceNumber ≤ maxSeq receipts jar := by
  rw [maxSeq_eq_foldl]
  exact mem_le_foldl_max _ 0 _
    (List.mem_map.mpr ⟨r, List.mem_filter.mpr ⟨hr, by simp [hj]⟩, rfl⟩)

/-- `tryInsertReceipt` succeeds whenever the receipt CID is not already
present: the sequence it picks is above every stored sequence of the
jar, so the `(jar_id, sequence_number)` constraint cannot fire. -/
theorem tryInsertReceipt_fresh (receipts : List ReceiptRow)
    (jar cid : String) (data sig : List Nat) (did : String) (now : Nat)
    (p : Option String)
    (hcid : receipts.find? (fun r => r.receiptCid == cid) = none) :
    tryInsertReceipt receipts jar cid data sig did now p
      = some (maxSeq receipts jar + 1,
          receipts ++ [⟨jar, maxSeq receipts jar + 1, cid, data, sig, did, now, p⟩]) := by
  have h1 : receipts.any
      (fun r => r.jarId == jar && r.sequenceNumber == maxSeq receipts jar + 1) = false := by
    rw [List.any_eq_false]
    intro r hr
    simp only [Bool.and_eq_true, beq_iff_eq, not_and]
    intro hj
    have := le_maxSeq receipts jar r hr hj
    omega
  have h2 : receipts.any (fun r => r.receiptCid == cid) = false := by
    rw [List.any_eq_false]
    intro r hr
    have := List.find?_eq_none.mp hcid r hr
    simpa using this
  rw [tryInsertReceipt]
  simp [h1, h2]

/-- Exhaustive behaviour of one `storeJarReceipt` call: a 400/403/500
leaves the database unchanged; the idempotent hit returns the stored
sequence unchanged; a fresh store appends exactly one row carrying
`MAX(seq)+1` for the jar and the computed CID. -/
theorem store_cases (env : RelayEnv) (db : RelayDb) (jar : String)
    (data sig : List Nat) (p : Option String) (now : Nat) :
    (∃ msg e, extractSenderDid env data = .error e
        ∧ storeJarReceipt env db jar data sig p now = (.badRequest msg, db))
    ∨ (∃ msg, storeJarReceipt env db jar data sig p now = (.forbidden msg, db))
    ∨ (∃ row, db.receipts.find? (fun r => r.receiptCid == computeCID data) = some row
        ∧ storeJarReceipt env db jar data sig p now
            = (.ok (computeCID data) row.sequenceNumber true, db))
    ∨ (∃ did members',
        extractSenderDid env data = .ok did
        ∧ db.receipts.find? (fun r => r.receiptCid == computeCID data) = none
        ∧ ¬(¬ isActiveMember db.members jar did = true ∧ 0 < maxSeq db.receipts jar)
        ∧ storeJarReceipt env db jar data sig p now
            = (.ok (computeCID data) (maxSeq db.receipts jar + 1) false,
               ⟨db.receipts ++ [⟨jar, maxSeq db.receipts jar + 1, computeCID data,
                  data, sig, did, now, p⟩], members'⟩)) := by
  have hv : verifyCID (computeCID data) data = true := beq_self_eq_true _
  unfold storeJarReceipt
  split
  next e hext => exact Or.inl ⟨e, e, hext, rfl⟩
  next did hext =>
    rw [if_neg (by simp [hv])]
    split
    next row hfind => exact Or.inr (Or.inr (Or.inl ⟨row, hfind, rfl⟩))
    next hfind =>
      split
      next hkey => exact Or.inr (Or.inl ⟨_, rfl⟩)
      next pub hkey =>
        by_cases hsig : env.verify pub data sig = true
        · rw [if_neg (by simp [hsig])]
          by_cases hmem : ¬ isActiveMember db.members jar did = true
              ∧ 0 < maxSeq db.receipts jar
          · rw [if_pos hmem]
            exact Or.inr (Or.inl ⟨_, rfl⟩)
          · rw [if_neg hmem,
              tryInsertReceipt_fresh db.receipts jar (computeCID data) data sig
                did now p hfind]
            exact Or.inr (Or.inr (Or.inr ⟨did, _, hext, hfind, hmem, rfl⟩))
        · rw [if_pos (by simpa using hsig)]
          exact Or.inr (Or.inl ⟨_, rfl⟩)

theorem extractSenderDid_congr (env env' : RelayEnv) (data : List Nat)
    (h : env'.decodeReceipt = env.decodeReceipt) :
    extractSenderDid env' data = extractSenderDid env data := by
  unfold extractSenderDid
  rw [h]

/-- C6: the receipt store is idempotent on `receipt_cid`.  If a call
stored the bytes freshly and returned sequence `seq`, then resubmitting
the same bytes — with any signature, any target jar id, any parent, at
any time, and under any key/verification oracles (only the CBOR decoder,
a fixed library, is shared) — returns the same `seq` flagged idempotent
and leaves the database, including the stored receipt bytes, exactly
unchanged. -/
theorem c6_store_idempotent (env env' : RelayEnv) (db : RelayDb)
    (jar jar' : String) (data sig sig' : List Nat) (p p' : Option String)
    (now now' : Nat) (cid : String) (seq : Nat)
    (hdec : env'.decodeReceipt = env.decodeReceipt)
    (h : (storeJarReceipt env db jar data sig p now).1 = .ok cid seq false) :
    storeJarReceipt env' (storeJarReceipt env db jar data sig p now).2 jar'
        data sig' p' now'
      = (.ok cid seq true, (storeJarReceipt env db jar data sig p now).2) := by
  rcases store_cases env db jar data sig p now with
    ⟨msg, e, hext, hc⟩ | ⟨msg, hc⟩ | ⟨row, hfind, hc⟩
    | ⟨did, members', hext, hfind, hmem, hc⟩
  · rw [hc] at h
    exact absurd h (by simp)
  · rw [hc] at h
    exact absurd h (by simp)
  · rw [hc] at h
    exact absurd h (by simp)
  · have h' : StoreResult.ok (computeCID data) (maxSeq db.receipts jar + 1) false
        = StoreResult.ok cid seq false := by
      rw [hc] at h
      exact h
    injection h' with e1 e2 e3
    subst e1
    subst e2
    have hreceipts : (storeJarReceipt env db jar data sig p now).2.receipts
        = db.receipts ++ [⟨jar, maxSeq db.receipts jar + 1, computeCID data,
            data, sig, did, now, p⟩] := by
      rw [hc]
    have hv : verifyCID (computeCID data) data = true := beq_self_eq_true _
    have hfind2 : ((storeJarReceipt env db jar data sig p now).2.receipts).find?
        (fun r => r.receiptCid == computeCID data)
        = some ⟨jar, maxSeq db.receipts jar + 1, computeCID data,
            data, sig, did, now, p⟩ := by
      rw [hreceipts, List.find?_append, hfind]
      simp [List.find?]
    obtain ⟨R, hR⟩ : ∃ R, (storeJarReceipt env db jar data sig p now).2 = R :=
      ⟨_, rfl⟩
    rw [hR] at hfind2 ⊢
    unfold storeJarReceipt
    simp only [extractSenderDid_congr env env' data hdec, hext]
    rw [if_neg (by simp [hv])]
    simp only [hfind2]

set_option maxRecDepth 10000 in
theorem c6_store_idempotent_witness :
    ((stubEnv "jar.created").decodeReceipt = (stubEnv "jar.created").decodeReceipt
        ∧ (storeJarReceipt (stubEnv "jar.created") ⟨[], []⟩ "j" [1] [2] none 5).1
            = .ok (computeCID [1]) 1 false)
      ∧ storeJarReceipt (stubEnv "jar.created")
            (storeJarReceipt (stubEnv "jar.created") ⟨[], []⟩ "j" [1] [2] none 5).2
            "j" [1] [7] none 9
          = (.ok (computeCID [1]) 1 true,
             (storeJarReceipt (stubEnv "jar.created") ⟨[], []⟩ "j" [1] [2] none 5).2) :=
  ⟨⟨rfl, by decide⟩,
    c6_store_idempotent (stubEnv "jar.created") (stubEnv "jar.created") ⟨[], []⟩
      "j" "j" [1] [2] [7] none none 5 9 (computeCID [1]) 1 rfl (by decide)⟩

/-- C7 amended: a `storeReceipt` call whose extracted `sender_did` is not
an active member of the jar is rejected with a 403 and leaves the
database unchanged whenever the jar already has at least one receipt —
provided its `receipt_cid` is not already stored (the idempotency lookup
runs before authorization); and a non-member call that performs a fresh
store can only happen on a jar with zero receipts. -/
theorem c7_nonmember_only_genesis (env : RelayEnv) (db : RelayDb) (jar : String)
    (data sig : List Nat) (p : Option String) (now : Nat) (did : String)
    (hext : extractSenderDid env data = .ok did)
    (hmem : isActiveMember db.members jar did = false) :
    (0 < maxSeq db.receipts jar →
      db.receipts.find? (fun r => r.receiptCid == computeCID data) = none →
      ∃ msg, storeJarReceipt env db jar data sig p now = (.forbidden msg, db))
    ∧ (∀ cid seq,
        (storeJarReceipt env db jar data sig p now).1 = .ok cid seq false →
        maxSeq db.receipts jar = 0) := by
  constructor
  · intro hpos hfresh
    rcases store_cases env db jar data sig p now with
      ⟨msg, e, hext', hc⟩ | ⟨msg, hc⟩ | ⟨row, hfind, hc⟩
      | ⟨did', members', hext', hfind, hnm, hc⟩
    · rw [hext] at hext'
      exact absurd hext' (by simp)
    · exact ⟨msg, hc⟩
    · rw [hfresh] at hfind
      exact absurd hfind (by simp)
    · exfalso
      rw [hext] at hext'
      injection hext' with hdid
      apply hnm
      refine ⟨?_, hpos⟩
      rw [← hdid, hmem]
      simp
  · intro cid seq h
    rcases store_cases env db jar data sig p now with
      ⟨msg, e, hext', hc⟩ | ⟨msg, hc⟩ | ⟨row, hfind, hc⟩
      | ⟨did', members', hext', hfind, hnm, hc⟩
    · rw [hc] at h
      exact absurd h (by simp)
    · rw [hc] at h
      exact absurd h (by simp)
    · rw [hc] at h
      exact absurd h (by simp)
    · rw [hext] at hext'
      injection hext' with hdid
      by_contra hne
      apply hnm
      refine ⟨?_, by omega⟩
      rw [← hdid, hmem]
      simp

set_option maxRecDepth 10000 in
/-- C7 counterexample to the claim as stated: a submission whose
`sender_did` is not an active member succeeds (HTTP 200, the stored
sequence) on a jar that already has a receipt, because the idempotency
lookup precedes the membership check.  The state is reachable: it is the
post-state of a first call whose receipt type the materializer ignores,
so `jar_members` stays empty while the receipt is stored. -/
theorem c7_nonmember_counterexample :
    isActiveMember
        ((storeJarReceipt (stubEnv "unknown.kind") ⟨[], []⟩ "j" [1] [2] none 5).2).members
        "j" "did:phone:aa" = false
      ∧ 0 < maxSeq
          ((storeJarReceipt (stubEnv "unknown.kind") ⟨[], []⟩ "j" [1] [2] none 5).2).receipts
          "j"
      ∧ (storeJarReceipt (stubEnv "unknown.kind")
            (storeJarReceipt (stubEnv "unknown.kind") ⟨[], []⟩ "j" [1] [2] none 5).2
            "j" [1] [2] none 6).1
          = .ok (computeCID [1]) 1 true := by
  refine ⟨by decide, by decide, by decide⟩

set_option maxRecDepth 10000 in
theorem c7_nonmember_only_genesis_witness :
    (extractSenderDid (stubEnv "unknown.kind") [3] = .ok "did:phone:aa"
        ∧ isActiveMember
            ((storeJarReceipt (stubEnv "unknown.kind") ⟨[], []⟩ "j" [1] [2] none 5).2).members
            "j" "did:phone:aa" = false)
      ∧ ∃ msg,
          storeJarReceipt (stubEnv "unknown.kind")
              (storeJarReceipt (stubEnv "unknown.kind") ⟨[], []⟩ "j" [1] [2] none 5).2
              "j" [3] [2] none 7
            = (.forbidden msg,
               (storeJarReceipt (stubEnv "unknown.kind") ⟨[], []⟩ "j" [1] [2] none 5).2) :=
  ⟨⟨by decide, by decide⟩,
    (c7_nonmember_only_genesis (stubEnv "unknown.kind")
        (storeJarReceipt (stubEnv "unknown.kind") ⟨[], []⟩ "j" [1] [2] none 5).2
        "j" [3] [2] none 7 "did:phone:aa" (by decide) (by decide)).1
      (by decide) (by decide)⟩

/-- Skipping `k` unique-violation attempts accumulates exactly the
backoffs `10·1, …, 10·k`. -/
theorem seqRetryGo_skip (outcomes : List InsertAttempt) (k : Nat) :
    ∀ (rem attempt : Nat) (sleeps : List Nat), k ≤ rem →
    (∀ i, i < k → outcomes.getD (attempt + i) .uniqueViolation = .uniqueViolation) →
    seqRetryGo outcomes rem attempt sleeps
      = seqRetryGo outcomes (rem - k) (attempt + k)
          (sleeps ++ (List.range' (attempt + 1) k).map (fun i => 10 * i)) := by
  induction k with
  | zero =>
    intro rem attempt sleeps _ _
    simp
  | succ k ih =>
    intro rem attempt sleeps hk h
    obtain ⟨r, rfl⟩ : ∃ r, rem = r + 1 := ⟨rem - 1, by omega⟩
    have h0 : outcomes.getD attempt .uniqueViolation = .uniqueViolation := by
      have := h 0 (by omega)
      simpa using this
    rw [seqRetryGo, h0]
    show seqRetryGo outcomes r (attempt + 1) (sleeps ++ [10 * (attempt + 1)]) = _
    rw [ih r (attempt + 1) (sleeps ++ [10 * (attempt + 1)]) (by omega)
      (fun i hi => by
        have := h (i + 1) (by omega)
        rwa [show attempt + (i + 1) = attempt + 1 + i by omega] at this)]
    rw [show r + 1 - (k + 1) = r - k from by omega,
      show attempt + (k + 1) = attempt + 1 + k from by omega]
    conv_rhs => rw [show (List.range' (attempt + 1) (k + 1)).map (fun i => 10 * i)
          = [10 * (attempt + 1)] ++ (List.range' (attempt + 1 + 1) k).map (fun i => 10 * i)
        from by rw [List.range'_succ]; rfl,
      ← List.append_assoc]

theorem foldl_max_range' (n : Nat) : (List.range' 1 n).foldl max 0 = n := by
  induction n with
  | zero => rfl
  | succ n ih =>
    rw [List.range'_concat, List.foldl_append, ih]
    simp only [List.foldl_cons, List.foldl_nil]
    omega

theorem jarSeqs_append_row (receipts : List ReceiptRow) (row : ReceiptRow)
    (jar : String) :
    jarSeqs (receipts ++ [row]) jar
      = jarSeqs receipts jar
        ++ (if row.jarId = jar then [row.sequenceNumber] else []) := by
  unfold jarSeqs
  rw [List.filter_append, List.map_append]
  by_cases h : row.jarId = jar
  · rw [if_pos h]
    simp [List.filter_singleton, h]
  · rw [if_neg h]
    simp [List.filter_singleton, h]

/-- One store call preserves per-jar density of the sequence numbers. -/
theorem store_dense_step (env : RelayEnv) (db : RelayDb) (jar' : String)
    (data sig : List Nat) (p : Option String) (now : Nat)
    (hdb : ∀ jar, jarSeqs db.receipts jar
      = List.range' 1 (jarSeqs db.receipts jar).length) :
    ∀ jar, jarSeqs (storeJarReceipt env db jar' data sig p now).2.receipts jar
      = List.range' 1
          (jarSeqs (storeJarReceipt env db jar' data sig p now).2.receipts jar).length := by
  rcases store_cases env db jar' data sig p now with
    ⟨msg, e, hext, hc⟩ | ⟨msg, hc⟩ | ⟨row, hfind, hc⟩
    | ⟨did, members', hext, hfind, hnm, hc⟩
  · rw [hc]; exact hdb
  · rw [hc]; exact hdb
  · rw [hc]; exact hdb
  · intro jar
    have hrec : (storeJarReceipt env db jar' data sig p now).2.receipts
        = db.receipts ++ [⟨jar', maxSeq db.receipts jar' + 1, computeCID data,
            data, sig, did, now, p⟩] := by
      rw [hc]
    rw [hrec, jarSeqs_append_row]
    by_cases hj : jar' = jar
    · subst hj
      rw [if_pos rfl]
      have hmax : maxSeq db.receipts jar'
          = (jarSeqs db.receipts jar').length := by
        rw [maxSeq_eq_foldl]
        conv_lhs => rw [show (db.receipts.filter (fun r => r.jarId == jar')).map
          (fun r => r.sequenceNumber) = jarSeqs db.receipts jar' from rfl, hdb jar']
        exact foldl_max_range' _
      have hnew : jarSeqs db.receipts jar'
          ++ [(⟨jar', maxSeq db.receipts jar' + 1, computeCID data, data, sig,
              did, now, p⟩ : ReceiptRow).sequenceNumber]
          = List.range' 1 ((jarSeqs db.receipts jar').length + 1) := by
        show jarSeqs db.receipts jar' ++ [maxSeq db.receipts jar' + 1] = _
        rw [List.range'_concat]
        conv_lhs => rw [hdb jar']
        rw [hmax, Nat.add_comm 1 _, Nat.one_mul]
      rw [hnew, List.length_range']
    · rw [if_neg (by simpa using hj), List.append_nil]
      exact hdb jar

/-- C2: (density) in every state reachable by store requests from an
empty database, each jar's stored sequence numbers are exactly
`[1, …, n]`; (assignment) a successful insert always carries
`COALESCE(MAX(seq), 0) + 1`; (retry) the loop retries a unique violation
with backoffs `10·attempt` ms up to 5 attempts, returns an assigned
sequence as soon as one attempt succeeds, propagates any other database
error, and fails after 5 unique violations. -/
theorem c2_sequence_contract :
    (∀ (calls : List StoreCall) (jar : String),
        jarSeqs (applyStores calls).receipts jar
          = List.range' 1 (jarSeqs (applyStores calls).receipts jar).length)
    ∧ (∀ (receipts : List ReceiptRow) (jar cid : String) (data sig : List Nat)
          (did : String) (now : Nat) (p : Option String) (seq : Nat)
          (R : List ReceiptRow),
        tryInsertReceipt receipts jar cid data sig did now p = some (seq, R) →
        seq = maxSeq receipts jar + 1)
    ∧ (∀ (outcomes : List InsertAttempt) (k seq : Nat), k < 5 →
        (∀ i, i < k → outcomes.getD i .uniqueViolation = .uniqueViolation) →
        outcomes.getD k .uniqueViolation = .assigned seq →
        sequenceRetryLoop outcomes
          = ((List.range' 1 k).map (fun i => 10 * i), .ok seq))
    ∧ (∀ (outcomes : List InsertAttempt) (k : Nat) (msg : String), k < 5 →
        (∀ i, i < k → outcomes.getD i .uniqueViolation = .uniqueViolation) →
        outcomes.getD k .uniqueViolation = .dbError msg →
        sequenceRetryLoop outcomes
          = ((List.range' 1 k).map (fun i => 10 * i), .error msg))
    ∧ (∀ outcomes : List InsertAttempt,
        (∀ i, i < 5 → outcomes.getD i .uniqueViolation = .uniqueViolation) →
        sequenceRetryLoop outcomes
          = ([10, 20, 30, 40, 50],
             .error "Failed to assign sequence after 5 retries (race condition)")) := by
  refine ⟨?_, ?_, ?_, ?_, ?_⟩
  · intro calls
    suffices h : ∀ (db : RelayDb),
        (∀ jar, jarSeqs db.receipts jar
          = List.range' 1 (jarSeqs db.receipts jar).length) →
        ∀ jar, jarSeqs (calls.foldl (fun db c =>
            (storeJarReceipt c.env db c.jarId c.receiptBytes c.signatureBytes
              c.parentCid c.now).2) db).receipts jar
          = List.range' 1 (jarSeqs (calls.foldl (fun db c =>
              (storeJarReceipt c.env db c.jarId c.receiptBytes c.signatureBytes
                c.parentCid c.now).2) db).receipts jar).length by
      exact h ⟨[], []⟩ (fun jar => rfl)
    induction calls with
    | nil => exact fun db hdb => hdb
    | cons c rest ih =>
      intro db hdb
      exact ih _ (store_dense_step c.env db c.jarId c.receiptBytes
        c.signatureBytes c.parentCid c.now hdb)
  · intro receipts jar cid data sig did now p seq R h
    rw [tryInsertReceipt] at h
    by_cases hcond : (receipts.any (fun r => r.jarId == jar
          && r.sequenceNumber == maxSeq receipts jar + 1)
        || receipts.any (fun r => r.receiptCid == cid)) = true
    · rw [if_pos hcond] at h
      exact absurd h (by simp)
    · rw [if_neg hcond] at h
      injection h with h'
      injection h' with h1 h2
      exact h1.symm
  · intro outcomes k seq hk h1 h2
    rw [sequenceRetryLoop, seqRetryGo_skip outcomes k 5 0 [] (by omega)
      (fun i hi => by simpa using h1 i hi)]
    obtain ⟨r, hr⟩ : ∃ r, 5 - k = r + 1 := ⟨4 - k, by omega⟩
    rw [hr, seqRetryGo]
    rw [show (0 + k) = k by omega, h2, List.nil_append]
  · intro outcomes k msg hk h1 h2
    rw [sequenceRetryLoop, seqRetryGo_skip outcomes k 5 0 [] (by omega)
      (fun i hi => by simpa using h1 i hi)]
    obtain ⟨r, hr⟩ : ∃ r, 5 - k = r + 1 := ⟨4 - k, by omega⟩
    rw [hr, seqRetryGo]
    rw [show (0 + k) = k by omega, h2, List.nil_append]
  · intro outcomes h
    rw [sequenceRetryLoop, seqRetryGo_skip outcomes 5 5 0 [] (by omega)
      (fun i hi => by simpa using h i hi)]
    rfl

theorem c2_sequence_contract_witness :
    (1 < 5
        ∧ (∀ i, i < 1 →
            ([InsertAttempt.uniqueViolation, InsertAttempt.assigned 7]).getD i
              .uniqueViolation = .uniqueViolation)
        ∧ ([InsertAttempt.uniqueViolation, InsertAttempt.assigned 7]).getD 1
            .uniqueViolation = .assigned 7)
      ∧ sequenceRetryLoop [InsertAttempt.uniqueViolation, InsertAttempt.assigned 7]
          = ((List.range' 1 1).map (fun i => 10 * i), .ok 7) :=
  ⟨⟨by decide, by decide, by decide⟩,
    c2_sequence_contract.2.2.1 [InsertAttempt.uniqueViolation, InsertAttempt.assigned 7]
      1 7 (by decide) (by decide) (by decide)⟩

/-- C1: the spec says only the sender may delete a non-expired message and any
other caller gets 403 with all rows and the blob unchanged.  In the code the
DELETE statement binds the message row's own `sender_did` instead of the
caller's, so the predicate is always satisfied: a caller who is not the sender
deletes a message that has not expired (now = 1000 < expires_at = 2000), and
the message row, its delivery row and the blob are all removed. -/
theorem c1_delete_auth_bug :
    deleteMessage
        [⟨"m1", "did:buds:alice", some "messages/m1.bin", 2000⟩]
        [⟨"m1", "did:buds:bob", none⟩]
        ["messages/m1.bin"]
        "did:buds:mallory" "m1" 1000
      = (DeleteResult.success 1000, [], [], [])
    ∧ ("did:buds:mallory" ≠ "did:buds:alice") ∧ ¬(2000 < 1000) := by
  refine ⟨?_, by decide, by decide⟩
  rfl

end BudsRelay
